import Mathlib

/-!
hello-dl: fixed-shape tensors of tracked numbers and tensor layers

A shallow embedding of `array.hh` (`SArray`, `NNArray`) and of
`tensor-layers.hh` (`TensorLayer`, `Linear`, `Conv2d`).

Conventions of the embedding

* Numeric values (`T`, in practice `float`) are elements of an abstract type `α`
  carrying exact arithmetic; rounding is not modelled.
* `unsigned int` arithmetic is arithmetic on `Nat` reduced modulo `2 ^ 32`; an `int`
  is an `Int`.
* An operation that throws (`std::vector::at` out of range), that reads or writes a
  vector outside its bounds, or that is rejected by the compiler for the given
  template arguments has no result: it evaluates to `none`.
* A `for` loop over `0 .. n-1` is `forLoop n body`, threading the mutated locals as
  an explicit state.
-/

namespace HelloDL

/-! ## Machine integers -/

/-- Reduction of an arithmetic result into the 32-bit `unsigned int`. -/
def u32 (n : Nat) : Nat := n % 2 ^ 32

/-- Conversion of an `unsigned int` or `size_t` value to `int`
(two's complement narrowing). -/
def toInt (n : Nat) : Int := Int.bmod n (2 ^ 32)

/-- Conversion of an `int` to `unsigned int`. -/
def toUInt (x : Int) : Nat := (x % 2 ^ 32).toNat

/-- The expression `x*COLS + y` of `operator()(int x, int y)`: `COLS` is
`unsigned int`, so both `int` operands are converted to `unsigned int` and the
result is reduced modulo `2 ^ 32` before it is handed to `std::vector::at`. -/
def flatIndex (COLS : Nat) (x y : Int) : Nat := toUInt (x * (COLS : Int) + y)

/-- Subtraction `a - b` in the 64-bit `size_t`, as in `d_store.size() - 1`. -/
def subSize (a b : Nat) : Nat := (a + (2 ^ 64 - b % 2 ^ 64)) % 2 ^ 64

/-- Subtraction `a - b` in `unsigned int`, as in the template arguments
`1+ROWS-KERNEL`: the result wraps modulo `2 ^ 32`. -/
def subU32 (a b : Nat) : Nat := (a + (2 ^ 32 - b % 2 ^ 32)) % 2 ^ 32

/-! ## Loops -/

/-- The loop `for (i = 0; i < n; ++i) body`, over an explicit state; the loop has
no result as soon as one iteration has none. -/
def forLoop {σ : Type} : Nat → (Nat → σ → Option σ) → σ → Option σ
  | 0, _, s => some s
  | n + 1, body, s => (forLoop n body s).bind (body n)

/-- The loop `for (i = lo; i < hi; ++i) body`. -/
def forRange {σ : Type} (lo hi : Nat) (body : Nat → σ → Option σ) (s : σ) : Option σ :=
  forLoop (hi - lo) (fun k => body (lo + k)) s

/-! ## Scalar nodes -/

/-- The operation recorded in a scalar node built by a binary operator. -/
inductive NodeOp where
  | add
  | sub
  | mul
  | div
  | max
deriving DecidableEq

/-- Modelled from the spec: the Scalar Node `TrackedNumber<T>` of `tracked.hh`,
which is not part of the sources at hand. A node holds its current numeric value,
its accumulated gradient, and a reference to the operation that produced it
together with its operand nodes (none for a leaf). -/
inductive TrackedNumber (α : Type) where
  | leaf (val grad : α)
  | binary (op : NodeOp) (lhs rhs : TrackedNumber α) (val grad : α)
  | func (arg : TrackedNumber α) (val grad : α)
deriving DecidableEq

namespace TrackedNumber

variable {α : Type}

/-- Modelled from the spec: `getVal()`, the current numeric value of a node. -/
def getVal : TrackedNumber α → α
  | leaf v _ => v
  | binary _ _ _ v _ => v
  | func _ v _ => v

/-- Modelled from the spec: `getGrad()`, the accumulated gradient of a node. -/
def getGrad : TrackedNumber α → α
  | leaf _ g => g
  | binary _ _ _ _ g => g
  | func _ _ g => g

/-- Modelled from the spec: the conversion of a raw value to a node, a leaf with
no gradient history. -/
def ofVal [Zero α] (v : α) : TrackedNumber α := leaf v 0

/-- Modelled from the spec: `zeroGrad()`, resetting the accumulated gradient. -/
def zeroGrad [Zero α] : TrackedNumber α → TrackedNumber α
  | leaf v _ => leaf v 0
  | binary op l r v _ => binary op l r v 0
  | func a v _ => func a v 0

/-- Modelled from the spec: `operator+` computes the forward value with the
underlying addition and returns a new node. -/
def add [Zero α] [Add α] (a b : TrackedNumber α) : TrackedNumber α :=
  binary NodeOp.add a b (a.getVal + b.getVal) 0

/-- Modelled from the spec: `operator-` on nodes. -/
def sub [Zero α] [Sub α] (a b : TrackedNumber α) : TrackedNumber α :=
  binary NodeOp.sub a b (a.getVal - b.getVal) 0

/-- Modelled from the spec: `operator*` on nodes. -/
def mul [Zero α] [Mul α] (a b : TrackedNumber α) : TrackedNumber α :=
  binary NodeOp.mul a b (a.getVal * b.getVal) 0

/-- Modelled from the spec: `operator/` on nodes. -/
def div [Zero α] [Div α] (a b : TrackedNumber α) : TrackedNumber α :=
  binary NodeOp.div a b (a.getVal / b.getVal) 0

/-- Modelled from the spec: `makeMax`, whose forward value is the greater of the
two operands. -/
def makeMax [Zero α] [Max α] (a b : TrackedNumber α) : TrackedNumber α :=
  binary NodeOp.max a b (max a.getVal b.getVal) 0

/-- Modelled from the spec: `makeFunc(x, f)`, whose forward value is `f` applied
to the value of `x`; `f` stands for the functor (`ExpFunc`, `LogFunc`, ...). -/
def makeFunc [Zero α] (a : TrackedNumber α) (f : α → α) : TrackedNumber α :=
  func a (f a.getVal) 0

/-- Modelled from the spec: the default-constructed node, an inert zero-valued
leaf. -/
instance [Zero α] : Inhabited (TrackedNumber α) := ⟨leaf 0 0⟩

end TrackedNumber

/-! ## Plain tensors -/

/-- The struct `SArray<T, ROWS, COLS>`: a flat vector of raw values. -/
structure SArray (α : Type) (ROWS COLS : Nat) where
  d_store : List α
deriving DecidableEq

namespace SArray

variable {α : Type} {ROWS COLS : Nat}

/-- The constructor `SArray()`: `d_store.resize(ROWS*COLS)`. -/
def create [Zero α] : SArray α ROWS COLS := ⟨List.replicate (u32 (ROWS * COLS)) 0⟩

/-- The accessor `operator()(int x, int y)`: `d_store.at(x*COLS + y)`. -/
def elemAt (t : SArray α ROWS COLS) (x y : Int) : Option α :=
  t.d_store[flatIndex COLS x y]?

/-- The operator `operator*=(float val)`: every stored value is multiplied by `val`. -/
def mulAssign [Mul α] (t : SArray α ROWS COLS) (val : α) : SArray α ROWS COLS :=
  ⟨t.d_store.map (fun v => v * val)⟩

/-- The operator `operator/=(float val)`. -/
def divAssign [Div α] (t : SArray α ROWS COLS) (val : α) : SArray α ROWS COLS :=
  ⟨t.d_store.map (fun v => v / val)⟩

end SArray

/-! ## Tracked tensors -/

/-- The struct `NNArray<T, ROWS, COLS>`: a flat vector of scalar nodes. -/
structure NNArray (α : Type) (ROWS COLS : Nat) where
  d_store : List (TrackedNumber α)
deriving DecidableEq

namespace NNArray

variable {α : Type} {ROWS COLS : Nat}

/-- The constructor `NNArray()`: `d_store.resize(ROWS*COLS)`, the product being
taken in `unsigned int`. -/
def create [Zero α] : NNArray α ROWS COLS :=
  ⟨List.replicate (u32 (ROWS * COLS)) default⟩

/-- The accessor `operator()(int x, int y)` used as a value:
`d_store.at(x*COLS + y)`. -/
def elemAt (t : NNArray α ROWS COLS) (x y : Int) : Option (TrackedNumber α) :=
  t.d_store[flatIndex COLS x y]?

/-- The accessor `operator()(int x, int y)` used as the target of an assignment. -/
def assignAt (t : NNArray α ROWS COLS) (x y : Int) (v : TrackedNumber α) :
    Option (NNArray α ROWS COLS) :=
  if flatIndex COLS x y < t.d_store.length then
    some ⟨t.d_store.set (flatIndex COLS x y) v⟩
  else none

/-- The method `getGrad()`: a plain tensor of the accumulated gradients. -/
def getGrad (t : NNArray α ROWS COLS) : SArray α ROWS COLS :=
  ⟨t.d_store.map TrackedNumber.getGrad⟩

/-- The operator `operator*` (matrix product): `*this` is `ROWS×COLS`, `a` is
`COLS×N`, the result is `ROWS×N`. -/
def matMul [Zero α] [Add α] [Mul α] {N : Nat}
    (self : NNArray α ROWS COLS) (a : NNArray α COLS N) : Option (NNArray α ROWS N) :=
  forLoop ROWS (fun i ret =>
    forLoop N (fun j ret => do
      let ret ← ret.assignAt (toInt i) (toInt j) (TrackedNumber.ofVal 0)
      forLoop COLS (fun k ret => do
        let lhs ← self.elemAt (toInt i) (toInt k)
        let rhs ← a.elemAt (toInt k) (toInt j)
        let cur ← ret.elemAt (toInt i) (toInt j)
        ret.assignAt (toInt i) (toInt j) (cur.add (lhs.mul rhs))) ret) ret)
    create

/-- The operator `operator-=` (parameter update): each node is replaced by the
leaf converted from the raw value `d_store[pos].getVal() - rhs.d_store[pos]`. -/
def subAssign [Zero α] [Sub α] (t : NNArray α ROWS COLS) (rhs : SArray α ROWS COLS) :
    Option (NNArray α ROWS COLS) :=
  forLoop t.d_store.length (fun pos w => do
    let old ← w.d_store[pos]?
    let delta ← rhs.d_store[pos]?
    pure ⟨w.d_store.set pos (TrackedNumber.ofVal (old.getVal - delta))⟩) t

/-- The method `randomize(fact)`: every element becomes the leaf of a draw of the
normal distribution times `fact`; `draws pos` is the draw made for position `pos`. -/
def randomize [Zero α] [Mul α] (t : NNArray α ROWS COLS) (draws : Nat → α) (fact : α) :
    NNArray α ROWS COLS :=
  ⟨(List.range t.d_store.length).map (fun pos => TrackedNumber.ofVal (draws pos * fact))⟩

/-- The method `constant(val)`. -/
def constant [Zero α] (t : NNArray α ROWS COLS) (val : α) : NNArray α ROWS COLS :=
  ⟨t.d_store.map (fun _ => TrackedNumber.ofVal val)⟩

/-- The method `zero()`. -/
def zero [Zero α] (t : NNArray α ROWS COLS) : NNArray α ROWS COLS := t.constant 0

/-- The method `logSoftMax()`, over all fields; `expf` and `logf` stand for
`ExpFunc` and `LogFunc`. -/
def logSoftMax [Zero α] [Add α] [Sub α] [Max α] (expf logf : α → α)
    (t : NNArray α ROWS COLS) : Option (NNArray α ROWS COLS) := do
  let ret : NNArray α ROWS COLS := create
  let sum : TrackedNumber α := TrackedNumber.ofVal 0
  let lemax ← t.d_store[0]?
  let lemax ← forRange 1 t.d_store.length (fun pos lemax => do
    let e ← t.d_store[pos]?
    pure (lemax.makeMax e)) lemax
  let sum := t.d_store.foldl (fun sum v => sum.add ((v.sub lemax).makeFunc expf)) sum
  let logsum := sum.makeFunc logf
  forLoop ret.d_store.length (fun pos ret => do
    let e ← t.d_store[pos]?
    pure ⟨ret.d_store.set pos ((e.sub lemax).sub logsum)⟩) ret

/-- The method `sum()`: all elements folded with the node addition, from `0`. -/
def sum [Zero α] [Add α] (t : NNArray α ROWS COLS) : TrackedNumber α :=
  t.d_store.foldl (fun ret item => ret.add item) (TrackedNumber.ofVal 0)

/-- The method `xValueIndexOfColumn(col, fact)`: goes down a column to find the row
with the x-est value. The locals are `(xval, xrow)`, `xrow` being an `int`. The
parameter `fact` and the locals `xval` and `val` are declared `float` whatever the
value type `T` is: `toFloat` is the conversion from `T` to `float` that every
product `fact*getVal()` undergoes when it is stored, and `fact` is the factor as a
value of `T`. The comparison `val > xval` is one of `float`s. -/
def xValueIndexOfColumn {φ : Type} [Mul α] [LT φ] [DecidableRel (fun a b : φ => a < b)]
    (toFloat : α → φ) (t : NNArray α ROWS COLS) (col : Int) (fact : α) : Option Nat := do
  let e0 ← t.elemAt 0 col
  let st ← forLoop ROWS (fun r (st : φ × Int) => do
    let e ← t.elemAt (toInt r) col
    let val := toFloat (fact * e.getVal)
    if val > st.1 then pure (val, toInt r) else pure st) (toFloat (fact * e0.getVal), 0)
  pure (toUInt st.2)

/-- The method `maxValueIndexOfColumn(col)`. -/
def maxValueIndexOfColumn {φ : Type} [Mul α] [One α] [LT φ]
    [DecidableRel (fun a b : φ => a < b)]
    (toFloat : α → φ) (t : NNArray α ROWS COLS) (col : Int) : Option Nat :=
  t.xValueIndexOfColumn toFloat col 1

/-- The method `minValueIndexOfColumn(col)`. -/
def minValueIndexOfColumn {φ : Type} [Mul α] [One α] [Neg α] [LT φ]
    [DecidableRel (fun a b : φ => a < b)]
    (toFloat : α → φ) (t : NNArray α ROWS COLS) (col : Int) : Option Nat :=
  t.xValueIndexOfColumn toFloat col (-1)

/-- The method `elMult(w)`: the elementwise product, written into a fresh tensor. -/
def elMult [Zero α] [Mul α] (t w : NNArray α ROWS COLS) : Option (NNArray α ROWS COLS) :=
  forLoop t.d_store.length (fun pos ret => do
    let a ← t.d_store[pos]?
    let b ← w.d_store[pos]?
    if pos < ret.d_store.length then pure ⟨ret.d_store.set pos (a.mul b)⟩ else none)
    create

/-- The method `Convo2d<KERNEL>(weights, bias)`. The locals are `(ret, kernel)`;
the shape `1+ROWS-KERNEL` by `1+COLS-KERNEL` is computed in `unsigned int`. -/
def Convo2d [Zero α] [Add α] [Mul α] {KERNEL : Nat} (t : NNArray α ROWS COLS)
    (weights : NNArray α KERNEL KERNEL) (bias : NNArray α 1 1) :
    Option (NNArray α (subU32 (1 + ROWS) KERNEL) (subU32 (1 + COLS) KERNEL)) := do
  let st ← forLoop (subU32 (1 + ROWS) KERNEL) (fun r st =>
    forLoop (subU32 (1 + COLS) KERNEL) (fun c
        (st : NNArray α (subU32 (1 + ROWS) KERNEL) (subU32 (1 + COLS) KERNEL) ×
          NNArray α KERNEL KERNEL) => do
      let kernel ← forLoop KERNEL (fun kr kernel =>
        forLoop KERNEL (fun kc (kernel : NNArray α KERNEL KERNEL) => do
          let e ← t.elemAt (toInt (u32 (r + kr))) (toInt (u32 (c + kc)))
          kernel.assignAt (toInt kr) (toInt kc) e) kernel) st.2
      let prod ← kernel.elMult weights
      let b ← bias.elemAt 0 0
      let ret ← st.1.assignAt (toInt r) (toInt c) (prod.sum.add b)
      pure (ret, kernel)) st) (create, create)
  pure st.1

/-- The method `Max2d<KERNEL>()`. The local `ret` is declared
`NNArray<T, ROWS/KERNEL, ROWS/KERNEL>` while the function returns
`NNArray<T, ROWS/KERNEL, COLS/KERNEL>`: the `return` is accepted only when both
are the same type, and `KERNEL` must not be zero for the quotients to exist. -/
def Max2d [Zero α] [Max α] (KERNEL : Nat) (t : NNArray α ROWS COLS) :
    Option (NNArray α (ROWS / KERNEL) (COLS / KERNEL)) :=
  if KERNEL = 0 ∨ ROWS / KERNEL ≠ COLS / KERNEL then none
  else do
    let ret ← forLoop (ROWS / KERNEL) (fun r ret =>
      forLoop (COLS / KERNEL) (fun c (ret : NNArray α (ROWS / KERNEL) (ROWS / KERNEL)) => do
        let max ← t.elemAt (toInt (u32 (r * KERNEL))) (toInt (u32 (c * KERNEL)))
        let max ← forLoop KERNEL (fun kr max =>
          forLoop KERNEL (fun kc (max : TrackedNumber α) => do
            let e ← t.elemAt (toInt (u32 (r * KERNEL + kr))) (toInt (u32 (c * KERNEL + kc)))
            pure (max.makeMax e)) max) max
        ret.assignAt (toInt r) (toInt c) max) ret) create
    pure ⟨ret.d_store⟩

/-- The method `norm()`, over all fields: every element is divided by the node
summing all elements. -/
def norm [Zero α] [Add α] [Div α] (t : NNArray α ROWS COLS) : Option (NNArray α ROWS COLS) :=
  let ret : NNArray α ROWS COLS := create
  let sum : TrackedNumber α := t.d_store.foldl (fun sum v => sum.add v) (TrackedNumber.ofVal 0)
  forLoop ret.d_store.length (fun pos ret => do
    let e ← t.d_store[pos]?
    pure ⟨ret.d_store.set pos (e.div sum)⟩) ret

/-- The method `flatViewRow()`: a `(ROWS*COLS)×1` tensor whose store is a copy of
`d_store`; the row count is the `unsigned int` product. -/
def flatViewRow (t : NNArray α ROWS COLS) : NNArray α (u32 (ROWS * COLS)) 1 :=
  ⟨t.d_store⟩

/-- The method `flatViewCol()`: a `1×(ROWS*COLS)` tensor whose store is a copy of
`d_store`. -/
def flatViewCol (t : NNArray α ROWS COLS) : NNArray α 1 (u32 (ROWS * COLS)) :=
  ⟨t.d_store⟩

/-- The mean of `getMeanStd()`: `ret.first` after the first loop and the division
by `d_store.size()`. -/
def meanStdMean [Zero α] [Add α] [Div α] [NatCast α] (t : NNArray α ROWS COLS) : α :=
  t.d_store.foldl (fun first item => first + item.getVal) 0 / (t.d_store.length : α)

/-- The locals `(diffsum, diff2sum)` of `getMeanStd()` after the second loop. -/
def meanStdSums [Zero α] [Add α] [Sub α] [Mul α] [Div α] [NatCast α]
    (t : NNArray α ROWS COLS) : α × α :=
  t.d_store.foldl (fun (st : α × α) item =>
    let diff := item.getVal - t.meanStdMean
    (st.1 + diff, st.2 + diff * diff)) (0, 0)

/-- The argument of `sqrt` in `getMeanStd()`:
`(diff2sum - diffsum*diffsum/size) / (size - 1)`, the last difference being taken
in `size_t`. -/
def meanStdRadicand [Zero α] [Add α] [Sub α] [Mul α] [Div α] [NatCast α]
    (t : NNArray α ROWS COLS) : α :=
  let diffsum := t.meanStdSums.1
  let diff2sum := t.meanStdSums.2
  let diffsum := diffsum * diffsum
  let diffsum := diffsum / (t.d_store.length : α)
  (diff2sum - diffsum) / ((subSize t.d_store.length 1 : Nat) : α)

/-- The method `getMeanStd()` (numerical recipes 14.1); `sqrtf` stands for `sqrt`. -/
def getMeanStd [Zero α] [Add α] [Sub α] [Mul α] [Div α] [NatCast α] (sqrtf : α → α)
    (t : NNArray α ROWS COLS) : α × α :=
  (t.meanStdMean, sqrtf t.meanStdRadicand)

/-- The free operator `operator+` on tracked tensors: the elementwise sum, written
into a fresh tensor. -/
def add [Zero α] [Add α] (lhs rhs : NNArray α ROWS COLS) : Option (NNArray α ROWS COLS) :=
  forLoop lhs.d_store.length (fun pos ret => do
    let a ← lhs.d_store[pos]?
    let b ← rhs.d_store[pos]?
    if pos < ret.d_store.length then pure ⟨ret.d_store.set pos (a.add b)⟩ else none)
    create

/-- The tensor `t` is a `ROWS×COLS` tensor whose element `(i, j)` has the raw value
`a i j`: its store holds `ROWS*COLS` nodes, a count within `unsigned int`, and
`operator()(i, j)` yields a node of value `a i j`. -/
def Holds (t : NNArray α ROWS COLS) (a : Nat → Nat → α) : Prop :=
  t.d_store.length = ROWS * COLS ∧ ROWS * COLS < 2 ^ 32 ∧
    ∀ i, i < ROWS → ∀ j, j < COLS →
      (t.elemAt (toInt i) (toInt j)).map TrackedNumber.getVal = some (a i j)

end NNArray

/-- The plain tensor `s` is a `ROWS×COLS` tensor whose element `(i, j)` is
`d i j`. -/
def SArray.Holds {α : Type} {ROWS COLS : Nat} (s : SArray α ROWS COLS)
    (d : Nat → Nat → α) : Prop :=
  s.d_store.length = ROWS * COLS ∧ ROWS * COLS < 2 ^ 32 ∧
    ∀ i, i < ROWS → ∀ j, j < COLS → s.elemAt (toInt i) (toInt j) = some (d i j)

/-! ## Tensor layers -/

/-- Modelled from the spec: the class `Tensor<T>` of `tensor2.hh`, which is not part
of the sources at hand; it is the Tracked Tensor of the spec with a shape fixed at
construction: a flat row-major sequence of scalar nodes. -/
structure Tensor (α : Type) where
  rows : Nat
  cols : Nat
  d_store : List (TrackedNumber α)
deriving DecidableEq

namespace Tensor

variable {α : Type}

/-- Modelled from the spec: the constructor `Tensor<T>(rows, cols)`; all elements
are default-initialised to an inert zero-valued node. -/
def create [Zero α] (rows cols : Nat) : Tensor α :=
  ⟨rows, cols, List.replicate (rows * cols) default⟩

/-- Modelled from the spec: `randomize(scale)`, as `NNArray::randomize`. -/
def randomize [Zero α] [Mul α] (t : Tensor α) (draws : Nat → α) (fact : α) : Tensor α :=
  { t with d_store :=
      ((⟨t.d_store⟩ : NNArray α t.rows t.cols).randomize draws fact).d_store }

/-- Modelled from the spec: `getAccumGrad()`, the gradient extraction of the tracked
tensor (`NNArray::getGrad`): a plain tensor of the accumulated gradients. -/
def getAccumGrad (t : Tensor α) : SArray α t.rows t.cols :=
  (⟨t.d_store⟩ : NNArray α t.rows t.cols).getGrad

/-- Modelled from the spec: `operator-=` against a plain tensor, the parameter update
of the tracked tensor (`NNArray::operator-=`). -/
def subAssign [Zero α] [Sub α] (t : Tensor α) (rhs : SArray α t.rows t.cols) :
    Option (Tensor α) :=
  ((⟨t.d_store⟩ : NNArray α t.rows t.cols).subAssign rhs).map
    fun w => { t with d_store := w.d_store }

/-- Modelled from the spec: `zero()`, setting every element to a constant leaf of
value `0` (`NNArray::zero`). -/
def zero [Zero α] (t : Tensor α) : Tensor α :=
  { t with d_store := ((⟨t.d_store⟩ : NNArray α t.rows t.cols).zero).d_store }

/-- Modelled from the spec: `operator+`, the elementwise addition of the tracked
tensor (`operator+` of `array.hh`); the shapes must match exactly, it fails
otherwise. -/
def add [Zero α] [Add α] (a b : Tensor α) : Option (Tensor α) :=
  if a.rows = b.rows ∧ a.cols = b.cols then
    ((⟨a.d_store⟩ : NNArray α a.rows a.cols).add ⟨b.d_store⟩).map
      fun r => ⟨a.rows, a.cols, r.d_store⟩
  else none

/-- Modelled from the spec: `operator*`, the matrix product of the tracked tensor
(`NNArray::operator*`); it fails if the inner dimensions mismatch. -/
def matMul [Zero α] [Add α] [Mul α] (a b : Tensor α) : Option (Tensor α) :=
  if a.cols = b.rows then
    ((⟨a.d_store⟩ : NNArray α a.rows a.cols).matMul
      (⟨b.d_store⟩ : NNArray α a.cols b.cols)).map
      fun r => ⟨a.rows, b.cols, r.d_store⟩
  else none

/-- Modelled from the spec: `makeConvo(KERNEL, weights, bias)`, the 2-D convolution
of the tracked tensor (`NNArray::Convo2d`) with a `KERNEL×KERNEL` weight tensor and
a `1×1` bias; the result has the shape `(1+rows-KERNEL, 1+cols-KERNEL)`. -/
def makeConvo [Zero α] [Add α] [Mul α] (t : Tensor α) (KERNEL : Nat)
    (weights bias : Tensor α) : Option (Tensor α) :=
  if weights.rows = KERNEL ∧ weights.cols = KERNEL ∧ bias.rows = 1 ∧ bias.cols = 1 then
    ((⟨t.d_store⟩ : NNArray α t.rows t.cols).Convo2d
      (⟨weights.d_store⟩ : NNArray α KERNEL KERNEL) (⟨bias.d_store⟩ : NNArray α 1 1)).map
      fun r => ⟨subU32 (1 + t.rows) KERNEL, subU32 (1 + t.cols) KERNEL, r.d_store⟩
  else none

/-- Modelled from the spec: `save(out)`, writing the raw value of every element, in
row-major element order, to the stream; a stream is the sequence of the values
written to it. -/
def save (t : Tensor α) (out : List α) : List α :=
  out ++ t.d_store.map TrackedNumber.getVal

/-- Modelled from the spec: `load(in)`, reading as many values as the tensor has
elements and reassigning them as leaves; it fails, leaving the tensor as it was,
when the stream holds fewer values. The result is the tensor and the rest of the
stream. -/
def load [Zero α] (t : Tensor α) (inp : List α) : Option (Tensor α × List α) :=
  if t.d_store.length ≤ inp.length then
    some ({ t with d_store := (inp.take t.d_store.length).map TrackedNumber.ofVal },
      inp.drop t.d_store.length)
  else none

/-- The tensor `t` has the shape `R×C` and its element `(i, j)` has the raw value
`a i j`. -/
def Holds (t : Tensor α) (R C : Nat) (a : Nat → Nat → α) : Prop :=
  t.rows = R ∧ t.cols = C ∧ (⟨t.d_store⟩ : NNArray α R C).Holds a

end Tensor

/-- The struct `TensorLayer<T>`. Its `d_params` is a vector of pointers to tensors
that are data members of the concrete layer: `members` lists these tensor objects
and a pointer is the position of its target in `members`. -/
structure TensorLayer (α : Type) where
  members : List (Tensor α)
  d_params : List Nat
deriving DecidableEq

namespace TensorLayer

variable {α : Type}

/-- The method `learn(lr)`: for each `p` of `d_params`, `grad1 = p->getAccumGrad()`,
`grad1 *= lr`, `*p -= grad1`. Dereferencing a pointer to no member has no result. -/
def learn [Zero α] [Sub α] [Mul α] (L : TensorLayer α) (lr : α) : Option (TensorLayer α) :=
  L.d_params.foldlM (fun (L : TensorLayer α) p => do
    let t ← L.members[p]?
    let grad1 := t.getAccumGrad
    let grad1 := grad1.mulAssign lr
    let t ← t.subAssign grad1
    pure { L with members := L.members.set p t }) L

/-- The method `save(out)`: `p->save(out)` for each `p` of `d_params`, in the order
of the vector. -/
def save (L : TensorLayer α) (out : List α) : Option (List α) :=
  L.d_params.foldlM (fun (out : List α) p => do
    let t ← L.members[p]?
    pure (t.save out)) out

/-- One iteration of the loop of `load`. The state is the layer together with the
rest of the stream, or `none` once a read has failed and the call is abandoned:
the remaining iterations then do not run and the layer stays as it is. -/
def loadStep [Zero α] (st : TensorLayer α × Option (List α)) (p : Nat) :
    TensorLayer α × Option (List α) :=
  match st.2 with
  | none => st
  | some inp =>
    match st.1.members[p]? with
    | none => (st.1, none)
    | some t =>
      match t.load inp with
      | none => (st.1, none)
      | some (t', rest) => ({ st.1 with members := st.1.members.set p t' }, some rest)

/-- The method `load(in)`: `p->load(in)` for each `p` of `d_params`, in the order of
the vector. The result is the layer as the call leaves it and the rest of the
stream, `none` when the call failed. -/
def load [Zero α] (L : TensorLayer α) (inp : List α) : TensorLayer α × Option (List α) :=
  L.d_params.foldl loadStep (L, some inp)

/-- The values of the tensor a registered pointer refers to, in element order. -/
def valuesOf (L : TensorLayer α) (p : Nat) : List α :=
  ((L.members[p]?).map fun t => t.d_store.map TrackedNumber.getVal).getD []

end TensorLayer

/-- The method `Linear::forward(in)`: `d_weights * in + d_bias`. The result is the
layer, which the method does not assign to, and the returned tensor. -/
def Linear.forward {α : Type} [Zero α] [Add α] [Mul α] (L : TensorLayer α)
    (inp : Tensor α) : Option (TensorLayer α × Tensor α) := do
  let d_weights ← L.members[0]?
  let d_bias ← L.members[1]?
  let prod ← d_weights.matMul inp
  let out ← prod.add d_bias
  pure (L, out)

/-- The constructor of `Linear<T, IN, OUT>`. The members are `d_weights` (position
`0`, `OUT×IN`) and `d_bias` (position `1`, `OUT×1`); the constructor calls
`randomize()` and then sets `d_params = {&d_weights, &d_bias}`. `scale` stands for
`1.0/sqrt(IN)` and `draws k` for the random draws of the `k`-th tensor. -/
def Linear.create {α : Type} [Zero α] [Mul α] (IN OUT : Nat) (scale : α)
    (draws : Nat → Nat → α) : TensorLayer α :=
  let d_weights : Tensor α := Tensor.create OUT IN
  let d_bias : Tensor α := Tensor.create OUT 1
  let d_weights := d_weights.randomize (draws 0) scale
  let d_bias := d_bias.randomize (draws 1) scale
  { members := [d_weights, d_bias], d_params := [0, 1] }

/-- The struct `Conv2d<T, ROWS, COLS, KERNEL, INLAYERS, OUTLAYERS>`: the members are
the filters `d_filters` (positions `0 .. OUTLAYERS-1`) and the biases `d_bias`
(positions `OUTLAYERS .. 2*OUTLAYERS-1`), next to the inherited `d_params`. -/
structure Conv2d (α : Type) extends TensorLayer α
deriving DecidableEq

/-- Whether `TensorLayer` declares a data member of the given name: its only data
member is the vector `d_params`. -/
def TensorLayer.declares (name : String) : Bool := name == "d_params"

/-- The statement `this->name.push_back(p)` in the constructor of a layer: the
pointer is appended to the vector of that name, and the statement is rejected by
the compiler when the layer has no such member. -/
def TensorLayer.pushBack {α : Type} (L : TensorLayer α) (name : String) (p : Nat) :
    Option (TensorLayer α) :=
  if TensorLayer.declares name then some { L with d_params := L.d_params ++ [p] } else none

/-- The constructor of `Conv2d`: every filter becomes a `KERNEL×KERNEL` tensor and
every bias a `1×1` tensor, each address being pushed with
`this->d_members.push_back`; then `randomize()` is called. The body names the
member `d_members`, which neither `Conv2d` nor `TensorLayer` declares: the compiler
rejects the constructor when it is instantiated, whatever `OUTLAYERS` is, so that
check comes first. `scale` stands for `sqrt(1.0/(INLAYERS*KERNEL*KERNEL))`. -/
def Conv2d.create {α : Type} [Zero α] [Mul α] (KERNEL OUTLAYERS : Nat) (scale : α)
    (draws : Nat → Nat → α) : Option (Conv2d α) :=
  if TensorLayer.declares "d_members" = false then none
  else do
    let init : Conv2d α :=
      { members := List.replicate (2 * OUTLAYERS) (Tensor.create 0 0), d_params := [] }
    let st ← forLoop OUTLAYERS (fun f (st : Conv2d α) => do
      let L : TensorLayer α :=
        { st.toTensorLayer with members := st.members.set f (Tensor.create KERNEL KERNEL) }
      let L ← L.pushBack "d_members" f
      pure { toTensorLayer := L }) init
    let st ← forLoop OUTLAYERS (fun b (st : Conv2d α) => do
      let L : TensorLayer α :=
        { st.toTensorLayer with
          members := st.members.set (OUTLAYERS + b) (Tensor.create 1 1) }
      let L ← L.pushBack "d_members" (OUTLAYERS + b)
      pure { toTensorLayer := L }) st
    pure { st with
      members := List.zipWith (fun k (t : Tensor α) => t.randomize (draws k) scale)
        (List.range st.members.length) st.members }

/-- The element `d_filters.at(ctr)` of a `Conv2d` layer with `OUTLAYERS` filters. -/
def Conv2d.filterAt {α : Type} (cv : Conv2d α) (OUTLAYERS ctr : Nat) : Option (Tensor α) :=
  if ctr < OUTLAYERS then cv.members[ctr]? else none

/-- The element `d_bias.at(ctr)` of a `Conv2d` layer with `OUTLAYERS` biases. -/
def Conv2d.biasAt {α : Type} (cv : Conv2d α) (OUTLAYERS ctr : Nat) : Option (Tensor α) :=
  if ctr < OUTLAYERS then cv.members[OUTLAYERS + ctr]? else none

/-- The method `Conv2d::forward(in)` on the array of input layers: every one of the
`OUTLAYERS` results is a `(1+ROWS-KERNEL)×(1+COLS-KERNEL)` tensor, zeroed, to which
the convolution of each input layer with filter and bias `ctr` is added. The result
is the layer, which the method does not assign to, and the array `ret`. -/
def Conv2d.forward {α : Type} [Zero α] [Add α] [Mul α] (ROWS COLS KERNEL OUTLAYERS : Nat)
    (cv : Conv2d α) (inp : List (Tensor α)) : Option (Conv2d α × List (Tensor α)) := do
  let ret : List (Tensor α) := List.replicate OUTLAYERS
    (Tensor.create (subU32 (1 + ROWS) KERNEL) (subU32 (1 + COLS) KERNEL))
  let ret ← forLoop OUTLAYERS (fun ctr (ret : List (Tensor α)) => do
    let p ← ret[ctr]?
    let p := p.zero
    let p ← inp.foldlM (fun (p : Tensor α) p2 => do
      let f ← cv.filterAt OUTLAYERS ctr
      let b ← cv.biasAt OUTLAYERS ctr
      let c ← p2.makeConvo KERNEL f b
      p.add c) p
    pure (ret.set ctr p)) ret
  pure (cv, ret)

/-- The value a convolution with kernel size `K` gives at position `(r, c)`: the sum
over the `K×K` window anchored there of input times weight, plus the bias. -/
def convValue {α : Type} [Semiring α] (K : Nat) (x w : Nat → Nat → α) (bias : α)
    (r c : Nat) : α :=
  (∑ kr in Finset.range K, ∑ kc in Finset.range K, x (r + kr) (c + kc) * w kr kc) + bias

/-! ## Model files -/

/-- The files of a directory, by name; a file holds the sequence of the values
written to it. -/
def FileSystem (α : Type) : Type := String → Option (List α)

/-- The file system in which the file `name` has been given the content `content`,
`none` removing the file. -/
def FileSystem.put {α : Type} (fs : FileSystem α) (name : String)
    (content : Option (List α)) : FileSystem α :=
  fun n => if n = name then content else fs n

/-- The function `saveModelState(ms, fname)` as the list of the file system states
after each of its steps, the stream `ofs` having been opened: `save` stands for
`ms.save`, applied to the fresh stream. -/
def saveModelStateTrace {α : Type} (save : List α → List α) (fname : String)
    (fs : FileSystem α) : List (FileSystem α) :=
  let opened := fs.put (fname ++ ".tmp") (some [])
  let written := opened.put (fname ++ ".tmp") (some (save []))
  let flushed := written
  let closed := flushed
  let unlinked := closed.put fname none
  let renamed := (unlinked.put fname (unlinked (fname ++ ".tmp"))).put (fname ++ ".tmp") none
  [opened, written, flushed, closed, unlinked, renamed]

/-- The plain gradient-descent step on a tensor: every node is replaced by the leaf
of its value minus its accumulated gradient times `lr`. -/
def sgdStep {α : Type} [Zero α] [Sub α] [Mul α] (lr : α) (t : Tensor α) : Tensor α :=
  { t with
    d_store := t.d_store.map (fun n => TrackedNumber.ofVal (n.getVal - n.getGrad * lr)) }

/-! ## Concrete tensors -/

/-- The 2×2 tensor with rows `1 2` and `3 4`. -/
def mA : NNArray ℤ 2 2 :=
  ⟨[TrackedNumber.leaf 1 0, TrackedNumber.leaf 2 0, TrackedNumber.leaf 3 0,
    TrackedNumber.leaf 4 0]⟩

/-- The values of `mA`. -/
def fA : Nat → Nat → ℤ := fun i j => 2 * i + j + 1

/-- A 3×3 tensor with rows `1 2 3`, `4 9 4` and `7 9 1`. -/
def mB : NNArray ℤ 3 3 :=
  ⟨[TrackedNumber.leaf 1 0, TrackedNumber.leaf 2 0, TrackedNumber.leaf 3 0,
    TrackedNumber.leaf 4 0, TrackedNumber.leaf 9 0, TrackedNumber.leaf 4 0,
    TrackedNumber.leaf 7 0, TrackedNumber.leaf 9 0, TrackedNumber.leaf 1 0]⟩

/-- The values of `mB`. -/
def fB : Nat → Nat → ℤ := fun i j => [1, 2, 3, 4, 9, 4, 7, 9, 1].getD (3 * i + j) 0

/-- A 1×1 bias tensor of value `100`. -/
def mBias : NNArray ℤ 1 1 := ⟨[TrackedNumber.leaf 100 0]⟩

/-- A 2×4 tensor with rows `1 2 3 4` and `9 4 7 9`. -/
def mC : NNArray ℤ 2 4 :=
  ⟨[TrackedNumber.leaf 1 0, TrackedNumber.leaf 2 0, TrackedNumber.leaf 3 0,
    TrackedNumber.leaf 4 0, TrackedNumber.leaf 9 0, TrackedNumber.leaf 4 0,
    TrackedNumber.leaf 7 0, TrackedNumber.leaf 9 0]⟩

/-- The values of `mC`. -/
def fC : Nat → Nat → ℤ := fun i j => [1, 2, 3, 4, 9, 4, 7, 9].getD (4 * i + j) 0

/-- The plain 2×2 tensor with rows `1 2` and `3 4`. -/
def sA : SArray ℤ 2 2 := ⟨[1, 2, 3, 4]⟩

/-- A layer of a 1×2 tensor (values `5 7`, gradients `1 2`) and a 1×1 tensor (value
`1`, gradient `10`), both registered. -/
def layerA : TensorLayer ℤ :=
  { members :=
      [⟨1, 2, [TrackedNumber.leaf 5 1, TrackedNumber.leaf 7 2]⟩,
        ⟨1, 1, [TrackedNumber.leaf 1 10]⟩]
    d_params := [0, 1] }

/-- A 1×2 tensor of the real values `1` and `3`. -/
def mR : NNArray ℝ 1 2 := ⟨[TrackedNumber.leaf 1 0, TrackedNumber.leaf 3 0]⟩

/-- The 2×2 tensor of the rational values `1 2` and `3 4`. -/
def qA : NNArray ℚ 2 2 :=
  ⟨[TrackedNumber.leaf 1 0, TrackedNumber.leaf 2 0, TrackedNumber.leaf 3 0,
    TrackedNumber.leaf 4 0]⟩

/-- The values of `qA`. -/
def fQ : Nat → Nat → ℚ := fun i j => ((2 * i + j + 1 : Nat) : ℚ)

/-- A layer of the shape of `layerA` whose tensors hold zeros. -/
def layerZ : TensorLayer ℤ :=
  { members :=
      [⟨1, 2, [TrackedNumber.leaf 0 0, TrackedNumber.leaf 0 0]⟩,
        ⟨1, 1, [TrackedNumber.leaf 0 0]⟩]
    d_params := [0, 1] }

/-- The layer `layerA` after its first tensor has been loaded with `8 9`. -/
def layerA8 : TensorLayer ℤ :=
  { members :=
      [⟨1, 2, [TrackedNumber.leaf 8 0, TrackedNumber.leaf 9 0]⟩,
        ⟨1, 1, [TrackedNumber.leaf 1 10]⟩]
    d_params := [0, 1] }

/-- A `Linear` layer with the 2×2 weights `1 2 / 3 4` and the bias `10 20`. -/
def linL : TensorLayer ℤ :=
  { members :=
      [⟨2, 2, mA.d_store⟩, ⟨2, 1, [TrackedNumber.leaf 10 0, TrackedNumber.leaf 20 0]⟩]
    d_params := [0, 1] }

/-- A `Conv2d` layer with one 2×2 filter `1 2 / 3 4` and the bias `100`. -/
def convL : Conv2d ℤ :=
  { members := [⟨2, 2, mA.d_store⟩, ⟨1, 1, mBias.d_store⟩]
    d_params := [] }

/-- Two input layers, each the 3×3 tensor `mB`. -/
def convIn : List (Tensor ℤ) := [⟨3, 3, mB.d_store⟩, ⟨3, 3, mB.d_store⟩]

/-- The conversion to `float` (binary32, round to nearest, ties to even) of an
integer of magnitude at most `2 ^ 25`, as the integer it yields: up to `2 ^ 24`
every integer is kept, above only the even ones are, and an odd one goes to its
neighbour that is a multiple of four. -/
def toFloat32 (x : ℤ) : ℤ :=
  if x.natAbs ≤ 2 ^ 24 ∨ x % 2 = 0 then x
  else if (x - 1) % 4 = 0 then x - 1 else x + 1

/-- A 2×1 tensor of `double` values, `16777216` above `16777217`. -/
def mD : NNArray ℤ 2 1 :=
  ⟨[TrackedNumber.leaf 16777216 0, TrackedNumber.leaf 16777217 0]⟩

/-- The values of `mD`. -/
def fD : Nat → Nat → ℤ := fun i _ => 16777216 + i

/-! ## Loop rule and index arithmetic -/

theorem forLoop_inv {σ : Type} (Inv : Nat → σ → Prop) (n : Nat)
    (body : Nat → σ → Option σ) (s0 : σ) (h0 : Inv 0 s0)
    (hstep : ∀ i s, i < n → Inv i s → ∃ s', body i s = some s' ∧ Inv (i + 1) s') :
    ∃ s', forLoop n body s0 = some s' ∧ Inv n s' := by
  induction n with
  | zero => exact ⟨s0, rfl, h0⟩
  | succ n ih =>
    obtain ⟨s1, h1, hI⟩ := ih (fun i s hi => hstep i s (Nat.lt_succ_of_lt hi))
    obtain ⟨s2, h2, hI2⟩ := hstep n s1 (Nat.lt_succ_self n) hI
    exact ⟨s2, by simp [forLoop, h1, h2], hI2⟩

theorem forLoop_fill {σ : Type} (Pre : Nat → σ → Prop) (R N : Nat)
    (body : Nat → Nat → σ → Option σ) (s0 : σ) (h0 : Pre 0 s0)
    (hstep : ∀ i j s, i < R → j < N → Pre (i * N + j) s →
      ∃ s', body i j s = some s' ∧ Pre (i * N + j + 1) s') :
    ∃ s', forLoop R (fun i s => forLoop N (fun j s => body i j s) s) s0 = some s' ∧
      Pre (R * N) s' := by
  apply forLoop_inv (fun i s => Pre (i * N) s) R _ s0 (by simpa using h0)
  intro i s hi hP
  obtain ⟨s', h, hP'⟩ := forLoop_inv (fun j s => Pre (i * N + j) s) N
    (fun j s => body i j s) s (by simpa using hP) (fun j s hj hP => hstep i j s hi hj hP)
  exact ⟨s', h, by simpa [Nat.succ_mul] using hP'⟩

theorem forLoop_post {σ : Type} (Inv : Nat → σ → Prop) (Q : σ → Prop) (n : Nat)
    (body : Nat → σ → Option σ) (s0 : σ) (h0 : Inv 0 s0)
    (hstep : ∀ i s, i < n → Inv i s → ∃ s', body i s = some s' ∧ Inv (i + 1) s')
    (hpost : ∀ s, Inv n s → Q s) :
    ∃ s', forLoop n body s0 = some s' ∧ Q s' := by
  obtain ⟨s', h, hI⟩ := forLoop_inv Inv n body s0 h0 hstep
  exact ⟨s', h, hpost s' hI⟩

theorem forLoop_fill_post {σ : Type} (Pre : Nat → σ → Prop) (Q : σ → Prop) (R N : Nat)
    (body : Nat → Nat → σ → Option σ) (s0 : σ) (h0 : Pre 0 s0)
    (hstep : ∀ i j s, i < R → j < N → Pre (i * N + j) s →
      ∃ s', body i j s = some s' ∧ Pre (i * N + j + 1) s')
    (hpost : ∀ s, Pre (R * N) s → Q s) :
    ∃ s', forLoop R (fun i s => forLoop N (fun j s => body i j s) s) s0 = some s' ∧
      Q s' := by
  obtain ⟨s', h, hI⟩ := forLoop_fill Pre R N body s0 h0 hstep
  exact ⟨s', h, hpost s' hI⟩

theorem toInt_emod (n : Nat) : toInt n % 2 ^ 32 = (n : Int) % 2 ^ 32 := by
  unfold toInt
  have h := @Int.bmod_emod (n : Int) (2 ^ 32)
  simpa using h

theorem toUInt_natCast {n : Nat} (h : n < 2 ^ 32) : toUInt (n : Int) = n := by
  unfold toUInt
  rw [Int.emod_eq_of_lt (by positivity) (by exact_mod_cast h)]
  simp

theorem flatIndex_toInt {C i j : Nat} (h : i * C + j < 2 ^ 32) :
    flatIndex C (toInt i) (toInt j) = i * C + j := by
  have e : (toInt i * (C : Int) + toInt j) % 2 ^ 32 = (((i * C + j : Nat) : Int)) % 2 ^ 32 := by
    rw [Int.add_emod, Int.mul_emod, toInt_emod, toInt_emod, ← Int.mul_emod, ← Int.add_emod]
    push_cast
    rfl
  unfold flatIndex
  have h2 := toUInt_natCast h
  unfold toUInt at h2 ⊢
  rw [e, h2]

theorem idx_lt {R C i j : Nat} (hi : i < R) (hj : j < C) : i * C + j < R * C := by
  calc i * C + j < i * C + C := by omega
    _ = (i + 1) * C := by ring
    _ ≤ R * C := Nat.mul_le_mul_right C hi

theorem idx_div {C i j : Nat} (hj : j < C) : (i * C + j) / C = i := by
  have hC : 0 < C := by omega
  rw [Nat.add_comm, Nat.add_mul_div_right _ _ hC, Nat.div_eq_of_lt hj, Nat.zero_add]

theorem idx_mod {C i j : Nat} (hj : j < C) : (i * C + j) % C = j := by
  rw [Nat.add_comm, Nat.add_mul_mod_self_right, Nat.mod_eq_of_lt hj]

namespace TrackedNumber

variable {α : Type}

@[simp] theorem getVal_ofVal [Zero α] (v : α) : (ofVal v).getVal = v := rfl

@[simp] theorem getGrad_ofVal [Zero α] (v : α) : (ofVal v).getGrad = 0 := rfl

@[simp] theorem getVal_add [Zero α] [Add α] (a b : TrackedNumber α) :
    (a.add b).getVal = a.getVal + b.getVal := rfl

@[simp] theorem getVal_sub [Zero α] [Sub α] (a b : TrackedNumber α) :
    (a.sub b).getVal = a.getVal - b.getVal := rfl

@[simp] theorem getVal_mul [Zero α] [Mul α] (a b : TrackedNumber α) :
    (a.mul b).getVal = a.getVal * b.getVal := rfl

@[simp] theorem getVal_div [Zero α] [Div α] (a b : TrackedNumber α) :
    (a.div b).getVal = a.getVal / b.getVal := rfl

@[simp] theorem getVal_makeMax [Zero α] [Max α] (a b : TrackedNumber α) :
    (a.makeMax b).getVal = max a.getVal b.getVal := rfl

@[simp] theorem getVal_makeFunc [Zero α] (a : TrackedNumber α) (f : α → α) :
    (a.makeFunc f).getVal = f a.getVal := rfl

end TrackedNumber

namespace NNArray

variable {α : Type} {ROWS COLS : Nat}

theorem elemAt_toInt (t : NNArray α ROWS COLS) {i j : Nat} (h : i * COLS + j < 2 ^ 32) :
    t.elemAt (toInt i) (toInt j) = t.d_store[i * COLS + j]? := by
  unfold elemAt
  rw [flatIndex_toInt h]

theorem assignAt_toInt (t : NNArray α ROWS COLS) {i j : Nat} (v : TrackedNumber α)
    (h : i * COLS + j < 2 ^ 32) (hlen : i * COLS + j < t.d_store.length) :
    t.assignAt (toInt i) (toInt j) v = some ⟨t.d_store.set (i * COLS + j) v⟩ := by
  unfold assignAt
  rw [flatIndex_toInt h, if_pos hlen]

theorem create_length [Zero α] (h : ROWS * COLS < 2 ^ 32) :
    (create : NNArray α ROWS COLS).d_store.length = ROWS * COLS := by
  simp only [create, u32, List.length_replicate]
  exact Nat.mod_eq_of_lt h

/-- A store whose `ROWS*COLS` positions carry the values `g` is a tensor holding
`g` read row-major. -/
theorem holds_of_flat (t : NNArray α ROWS COLS) (g : Nat → α)
    (hlen : t.d_store.length = ROWS * COLS) (hsz : ROWS * COLS < 2 ^ 32)
    (h : ∀ p, p < ROWS * COLS → t.d_store[p]?.map TrackedNumber.getVal = some (g p)) :
    t.Holds (fun i j => g (i * COLS + j)) := by
  refine ⟨hlen, hsz, fun i hi j hj => ?_⟩
  have hp := idx_lt hi hj
  rw [elemAt_toInt t (by omega)]
  exact h _ hp

theorem Holds.get {t : NNArray α ROWS COLS} {a : Nat → Nat → α} (h : t.Holds a)
    {i j : Nat} (hi : i < ROWS) (hj : j < COLS) :
    ∃ e, t.d_store[i * COLS + j]? = some e ∧ e.getVal = a i j := by
  obtain ⟨_, hsz, hv⟩ := h
  have hp := idx_lt hi hj
  have := hv i hi j hj
  rw [elemAt_toInt t (by omega)] at this
  simpa using this

/-- The triple loop of `operator*`: the result is filled in row-major order and
its element `(i, j)` accumulates `a i k * b k j` for `k = 0 .. COLS-1`. -/
theorem matMul_spec [Semiring α] {N : Nat} (A : NNArray α ROWS COLS) (B : NNArray α COLS N)
    (a b : Nat → Nat → α) (hA : A.Holds a) (hB : B.Holds b) (hRN : ROWS * N < 2 ^ 32) :
    ∃ ret, A.matMul B = some ret ∧
      ret.Holds (fun i j => ∑ k in Finset.range COLS, a i k * b k j) := by
  have hAsz := hA.2.1
  have hBsz := hB.2.1
  unfold matMul
  refine forLoop_fill_post
    (fun n (ret : NNArray α ROWS N) => ret.d_store.length = ROWS * N ∧
      ∀ p, p < n → ret.d_store[p]?.map TrackedNumber.getVal =
        some (∑ k in Finset.range COLS, a (p / N) k * b k (p % N)))
    _ ROWS N _ create ⟨create_length hRN, by simp⟩ ?_ ?_
  · intro i j ret hi hj ⟨hlen, hpre⟩
    have hq := idx_lt hi hj
    have hq32 : i * N + j < 2 ^ 32 := by omega
    dsimp only
    rw [assignAt_toInt ret _ hq32 (by omega)]
    simp only [Option.bind_eq_bind, Option.some_bind]
    refine forLoop_post
      (fun k (r : NNArray α ROWS N) => r.d_store.length = ROWS * N ∧
        (∀ p, p < i * N + j → r.d_store[p]?.map TrackedNumber.getVal =
          some (∑ k in Finset.range COLS, a (p / N) k * b k (p % N))) ∧
        ∃ e, r.d_store[i * N + j]? = some e ∧
          e.getVal = ∑ k' in Finset.range k, a i k' * b k' j)
      _ COLS _ _ ⟨by simp [hlen], ?_, TrackedNumber.ofVal 0, ?_, ?_⟩ ?_ ?_
    · intro p hp
      rw [List.getElem?_set_ne (by omega)]
      exact hpre p hp
    · simp [List.getElem?_set, hlen, hq]
    · simp
    · intro k r hk ⟨hl, hp, e, he, hev⟩
      obtain ⟨ea, hea, heav⟩ := hA.get hi hk
      obtain ⟨eb, heb, hebv⟩ := hB.get hk hj
      have hik := idx_lt hi hk
      have hkj := idx_lt hk hj
      rw [elemAt_toInt A (by omega), elemAt_toInt B (by omega), elemAt_toInt r hq32,
        hea, heb, he]
      simp only [Option.bind_eq_bind, Option.some_bind]
      rw [assignAt_toInt r _ hq32 (by omega)]
      refine ⟨_, rfl, by simp [hl], ?_, e.add (ea.mul eb), by simp [List.getElem?_set, hl, hq], ?_⟩
      · intro p hpp
        simp only
        rw [List.getElem?_set_ne (by omega)]
        exact hp p hpp
      · simp [Finset.sum_range_succ, hev, heav, hebv]
    · intro s' ⟨hl', hp', e, he, hev⟩
      refine ⟨hl', ?_⟩
      intro p hp
      rcases Nat.lt_succ_iff_lt_or_eq.mp hp with h | h
      · exact hp' p h
      · subst h
        rw [he, idx_div hj, idx_mod hj]
        simp [hev]
  · intro ret ⟨hlen, hval⟩
    refine ⟨hlen, hRN, fun i hi j hj => ?_⟩
    have hq := idx_lt hi hj
    rw [elemAt_toInt ret (by omega), hval _ hq, idx_div hj, idx_mod hj]

end NNArray

theorem bind_some_post {σ τ : Type} {x : Option σ} {f : σ → τ} {P : τ → Prop}
    (h : ∃ s, x = some s ∧ P (f s)) : ∃ r, (x.bind fun s => some (f s)) = some r ∧ P r := by
  obtain ⟨s, hs, hP⟩ := h
  exact ⟨f s, by simp [hs], hP⟩

theorem sum_range_flat {β : Type} [AddCommMonoid β] (K N : Nat) (f : Nat → Nat → β) :
    ∑ q in Finset.range (K * N), f (q / N) (q % N) =
      ∑ i in Finset.range K, ∑ j in Finset.range N, f i j := by
  induction K with
  | zero => simp
  | succ K ih =>
    rw [Nat.succ_mul, Finset.sum_range_add, ih, Finset.sum_range_succ]
    congr 1
    apply Finset.sum_congr rfl
    intro j hj
    have hj' : j < N := Finset.mem_range.mp hj
    rw [Nat.add_comm (K * N) j, Nat.add_comm j (K * N), idx_div hj', idx_mod hj']

namespace NNArray

variable {α : Type} {ROWS COLS : Nat}

theorem Holds.flat {t : NNArray α ROWS COLS} {a : Nat → Nat → α} (h : t.Holds a)
    {p : Nat} (hp : p < ROWS * COLS) :
    t.d_store[p]?.map TrackedNumber.getVal = some (a (p / COLS) (p % COLS)) := by
  have hC : 0 < COLS := by
    rcases Nat.eq_zero_or_pos COLS with h0 | h0
    · subst h0; simp at hp
    · exact h0
  have hdiv : p / COLS < ROWS := Nat.div_lt_of_lt_mul (by rwa [Nat.mul_comm] at hp)
  have hmod : p % COLS < COLS := Nat.mod_lt _ hC
  obtain ⟨e, he, hv⟩ := h.get hdiv hmod
  have : p / COLS * COLS + p % COLS = p := by
    rw [Nat.mul_comm]; exact Nat.div_add_mod p COLS
  rw [this] at he
  simp [he, hv]

theorem foldl_add_getVal [AddCommMonoid α] (l : List (TrackedNumber α)) (h : Nat → α)
    (acc : TrackedNumber α)
    (hl : ∀ q, q < l.length → l[q]?.map TrackedNumber.getVal = some (h q)) :
    (l.foldl (fun ret item => ret.add item) acc).getVal =
      acc.getVal + ∑ q in Finset.range l.length, h q := by
  induction l generalizing h acc with
  | nil => simp
  | cons x xs ih =>
    have h0 := hl 0 (by simp)
    simp at h0
    have := ih (fun q => h (q + 1)) (acc.add x) (by
      intro q hq
      have := hl (q + 1) (by simpa using hq)
      simpa using this)
    rw [List.foldl_cons, this, List.length_cons, Finset.sum_range_succ', TrackedNumber.getVal_add,
      h0]
    abel

theorem sum_getVal [AddCommMonoid α] (t : NNArray α ROWS COLS) (h : Nat → α)
    (hl : ∀ q, q < t.d_store.length → t.d_store[q]?.map TrackedNumber.getVal = some (h q)) :
    t.sum.getVal = ∑ q in Finset.range t.d_store.length, h q := by
  unfold sum
  rw [foldl_add_getVal _ h _ hl]
  simp

theorem elMult_flat [Zero α] [Mul α] (t w : NNArray α ROWS COLS) (x y : Nat → α)
    (hsz : ROWS * COLS < 2 ^ 32) (htl : t.d_store.length = ROWS * COLS)
    (ht : ∀ q, q < ROWS * COLS → t.d_store[q]?.map TrackedNumber.getVal = some (x q))
    (hw : ∀ q, q < ROWS * COLS → w.d_store[q]?.map TrackedNumber.getVal = some (y q)) :
    ∃ ret, t.elMult w = some ret ∧ ret.d_store.length = ROWS * COLS ∧
      ∀ q, q < ROWS * COLS →
        ret.d_store[q]?.map TrackedNumber.getVal = some (x q * y q) := by
  unfold elMult
  rw [htl]
  refine forLoop_post
    (fun pos (ret : NNArray α ROWS COLS) => ret.d_store.length = ROWS * COLS ∧
      ∀ q, q < ROWS * COLS → q < pos →
        ret.d_store[q]?.map TrackedNumber.getVal = some (x q * y q))
    _ _ _ _ ⟨create_length hsz, by simp⟩ ?_ ?_
  · intro pos ret hpos ⟨hl, hq⟩
    have h1 := ht pos hpos
    have h2 := hw pos hpos
    simp only [Option.map_eq_some'] at h1 h2
    obtain ⟨a, ha, hav⟩ := h1
    obtain ⟨b, hb, hbv⟩ := h2
    simp only [ha, hb, Option.bind_eq_bind, Option.some_bind, hl, hpos, if_true, Option.pure_def]
    refine ⟨_, rfl, by simp [hl], ?_⟩
    intro q hqn hqp
    rcases Nat.lt_succ_iff_lt_or_eq.mp hqp with h | h
    · simp only
      rw [List.getElem?_set_ne (by omega)]
      exact hq q hqn h
    · subst h
      simp [List.getElem?_set, hl, hqn, hav, hbv]
  · intro ret ⟨hl, hq⟩
    exact ⟨hl, fun q hqn => hq q hqn hqn⟩

end NNArray

theorem subU32_eq {n k : Nat} (hk : 1 ≤ k) (hkn : k ≤ n) (hn : n < 2 ^ 32) :
    subU32 (1 + n) k = 1 + n - k := by
  unfold subU32
  omega

theorem u32_eq {n : Nat} (h : n < 2 ^ 32) : u32 n = n := Nat.mod_eq_of_lt h

namespace NNArray

variable {α : Type} {ROWS COLS : Nat}

/-- The loops of `Convo2d`: every output position receives the sum, over the
`KERNEL×KERNEL` window anchored there, of input times weight, plus the bias. -/
theorem Convo2d_spec [Semiring α] {KERNEL : Nat} (t : NNArray α ROWS COLS)
    (weights : NNArray α KERNEL KERNEL) (bias : NNArray α 1 1)
    (a w b : Nat → Nat → α) (ht : t.Holds a) (hw : weights.Holds w) (hb : bias.Holds b)
    (hK : 1 ≤ KERNEL) (hKR : KERNEL ≤ ROWS) (hKC : KERNEL ≤ COLS) :
    subU32 (1 + ROWS) KERNEL = 1 + ROWS - KERNEL ∧
    subU32 (1 + COLS) KERNEL = 1 + COLS - KERNEL ∧
    (KERNEL = ROWS → KERNEL = COLS →
      subU32 (1 + ROWS) KERNEL = 1 ∧ subU32 (1 + COLS) KERNEL = 1) ∧
    ∃ ret, t.Convo2d weights bias = some ret ∧
      ret.Holds (fun r c =>
        (∑ kr in Finset.range KERNEL, ∑ kc in Finset.range KERNEL,
          a (r + kr) (c + kc) * w kr kc) + b 0 0) := by
  have hsz := ht.2.1
  have hR32 : ROWS < 2 ^ 32 := by
    calc ROWS = ROWS * 1 := (Nat.mul_one _).symm
      _ ≤ ROWS * COLS := Nat.mul_le_mul_left _ (by omega)
      _ < 2 ^ 32 := hsz
  have hC32 : COLS < 2 ^ 32 := by
    calc COLS = 1 * COLS := (Nat.one_mul _).symm
      _ ≤ ROWS * COLS := Nat.mul_le_mul_right _ (by omega)
      _ < 2 ^ 32 := hsz
  have hR' := subU32_eq hK hKR hR32
  have hC' := subU32_eq hK hKC hC32
  refine ⟨hR', hC', fun h1 h2 => ⟨by omega, by omega⟩, ?_⟩
  have hKK : KERNEL * KERNEL ≤ ROWS * COLS := Nat.mul_le_mul hKR hKC
  have hout : subU32 (1 + ROWS) KERNEL * subU32 (1 + COLS) KERNEL < 2 ^ 32 := by
    calc subU32 (1 + ROWS) KERNEL * subU32 (1 + COLS) KERNEL
        ≤ ROWS * COLS := Nat.mul_le_mul (by omega) (by omega)
      _ < 2 ^ 32 := hsz
  obtain ⟨eb, heb, hebv⟩ := hb.get (Nat.lt_succ_self 0) (Nat.lt_succ_self 0)
  have hbias : bias.elemAt 0 0 = some eb := by
    have := elemAt_toInt bias (i := 0) (j := 0) (by norm_num)
    simpa [toInt, heb] using this
  unfold Convo2d
  simp only [Option.bind_eq_bind, Option.pure_def]
  apply bind_some_post
  refine forLoop_fill_post
    (fun n (st : NNArray α (subU32 (1 + ROWS) KERNEL) (subU32 (1 + COLS) KERNEL) ×
        NNArray α KERNEL KERNEL) =>
      st.1.d_store.length = subU32 (1 + ROWS) KERNEL * subU32 (1 + COLS) KERNEL ∧
      st.2.d_store.length = KERNEL * KERNEL ∧
      ∀ p, p < n → st.1.d_store[p]?.map TrackedNumber.getVal =
        some ((∑ kr in Finset.range KERNEL, ∑ kc in Finset.range KERNEL,
          a (p / subU32 (1 + COLS) KERNEL + kr) (p % subU32 (1 + COLS) KERNEL + kc) * w kr kc)
            + b 0 0))
    _ _ _ _ _ ⟨create_length hout, create_length (by omega), by simp⟩ ?_ ?_
  · intro r c st hr hc ⟨hl1, hl2, hpre⟩
    have hq := idx_lt hr hc
    dsimp only
    -- the window is copied into `kernel`
    obtain ⟨kernel, hker, hkl, hkv⟩ := forLoop_fill_post
      (fun m (kernel : NNArray α KERNEL KERNEL) =>
        kernel.d_store.length = KERNEL * KERNEL ∧
        ∀ q, q < m → kernel.d_store[q]?.map TrackedNumber.getVal =
          some (a (r + q / KERNEL) (c + q % KERNEL)))
      (fun (kernel : NNArray α KERNEL KERNEL) =>
        kernel.d_store.length = KERNEL * KERNEL ∧
        ∀ q, q < KERNEL * KERNEL → kernel.d_store[q]?.map TrackedNumber.getVal =
          some (a (r + q / KERNEL) (c + q % KERNEL)))
      KERNEL KERNEL
      (fun kr kc (kernel : NNArray α KERNEL KERNEL) => do
          let e ← t.elemAt (toInt (u32 (r + kr))) (toInt (u32 (c + kc)))
          kernel.assignAt (toInt kr) (toInt kc) e)
      st.2 ⟨hl2, by simp⟩
      (by
        intro kr kc kernel hkr hkc ⟨hkl, hkpre⟩
        have hrk : r + kr < ROWS := by omega
        have hck : c + kc < COLS := by omega
        obtain ⟨e, he, hev⟩ := ht.get hrk hck
        have hidx := idx_lt hrk hck
        have hkq := idx_lt hkr hkc
        dsimp only
        rw [u32_eq (by omega), u32_eq (by omega), elemAt_toInt t (by omega), he]
        simp only [Option.bind_eq_bind, Option.some_bind]
        rw [assignAt_toInt kernel _ (by omega) (by omega)]
        refine ⟨_, rfl, by simp [hkl], ?_⟩
        intro q hqq
        rcases Nat.lt_succ_iff_lt_or_eq.mp hqq with h | h
        · simp only
          rw [List.getElem?_set_ne (by omega)]
          exact hkpre q h
        · subst h
          simp [List.getElem?_set, hkl, hkq, hev, idx_div hkc, idx_mod hkc])
      (fun s hs => hs)
    simp only [Option.bind_eq_bind] at hker
    rw [hker]
    simp only [Option.some_bind]
    obtain ⟨prod, hprod, hpl, hpv⟩ := elMult_flat kernel weights
      (fun q => a (r + q / KERNEL) (c + q % KERNEL)) (fun q => w (q / KERNEL) (q % KERNEL))
      (by omega) hkl hkv (fun q hqq => hw.flat hqq)
    rw [hprod, hbias]
    simp only [Option.some_bind]
    rw [assignAt_toInt st.1 _ (by omega) (by omega)]
    refine ⟨_, rfl, by simp [hl1], hkl, ?_⟩
    intro p hp
    rcases Nat.lt_succ_iff_lt_or_eq.mp hp with h | h
    · simp only
      rw [List.getElem?_set_ne (by omega)]
      exact hpre p h
    · subst h
      have hs := sum_getVal prod _ (fun q hqq => hpv q (by omega))
      rw [hpl, sum_range_flat KERNEL KERNEL
        (fun kr kc => a (r + kr) (c + kc) * w kr kc)] at hs
      simp [List.getElem?_set, hl1, hq, hs, hebv, idx_div hc, idx_mod hc]
  · intro st ⟨hl1, _, hval⟩
    refine ⟨hl1, hout, fun i hi j hj => ?_⟩
    have hq := idx_lt hi hj
    rw [elemAt_toInt st.1 (by omega), hval _ hq, idx_div hj, idx_mod hj]

/-- C2: for an R×C input holding `a`, a K×K weight tensor holding `w` and a 1×1
bias holding `b`, with `1 ≤ K ≤ R` and `K ≤ C`, `Convo2d` returns a tensor of shape
`(1+R-K)×(1+C-K)` whose element `(r, c)` has the value
`(∑ kr < K, ∑ kc < K, a (r+kr) (c+kc) * w kr kc) + b 0 0`; for `K = R = C` this is
the 1×1 tensor of the sum of the elementwise product of the whole input with the
kernel, plus the bias. -/
theorem Convo2d_holds [Semiring α] {KERNEL : Nat} (t : NNArray α ROWS COLS)
    (weights : NNArray α KERNEL KERNEL) (bias : NNArray α 1 1)
    (a w b : Nat → Nat → α) (ht : t.Holds a) (hw : weights.Holds w) (hb : bias.Holds b)
    (hK : 1 ≤ KERNEL) (hKR : KERNEL ≤ ROWS) (hKC : KERNEL ≤ COLS) :
    subU32 (1 + ROWS) KERNEL = 1 + ROWS - KERNEL ∧
    subU32 (1 + COLS) KERNEL = 1 + COLS - KERNEL ∧
    (KERNEL = ROWS → KERNEL = COLS →
      subU32 (1 + ROWS) KERNEL = 1 ∧ subU32 (1 + COLS) KERNEL = 1) ∧
    ∃ ret, t.Convo2d weights bias = some ret ∧
      ret.Holds (fun r c =>
        (∑ kr in Finset.range KERNEL, ∑ kc in Finset.range KERNEL,
          a (r + kr) (c + kc) * w kr kc) + b 0 0) := by
  obtain ⟨h1, h2, h3, ret, hret, hholds⟩ :=
    Convo2d_spec t weights bias a w b ht hw hb hK hKR hKC
  exact ⟨h1, h2, h3, ret, hret, hholds⟩

/-- C2 at a 3×3 input, a 2×2 kernel and the bias `100`. -/
theorem Convo2d_holds_witness :
    mB.Holds fB ∧ mA.Holds fA ∧ mBias.Holds (fun _ _ => 100) ∧ 1 ≤ 2 ∧ 2 ≤ 3 ∧
      subU32 (1 + 3) 2 = 1 + 3 - 2 ∧ subU32 (1 + 3) 2 = 1 + 3 - 2 ∧
      (2 = 3 → 2 = 3 → subU32 (1 + 3) 2 = 1 ∧ subU32 (1 + 3) 2 = 1) ∧
      ∃ ret, mB.Convo2d mA mBias = some ret ∧
        ret.Holds (fun r c =>
          (∑ kr in Finset.range 2, ∑ kc in Finset.range 2,
            fB (r + kr) (c + kc) * fA kr kc) + 100) :=
  have h1 : mB.Holds fB := by unfold Holds; decide
  have h2 : mA.Holds fA := by unfold Holds; decide
  have h3 : mBias.Holds (fun _ _ => 100) := by unfold Holds; decide
  ⟨h1, h2, h3, by decide, by decide,
    Convo2d_holds mB mA mBias fB fA (fun _ _ => 100) h1 h2 h3 (by decide) (by decide)
      (by decide)⟩

end NNArray

namespace NNArray

variable {α : Type} {ROWS COLS : Nat}

theorem dim_lt_of_size {R C : Nat} (h : R * C < 2 ^ 32) (hC : 0 < C) : R < 2 ^ 32 :=
  calc R = R * 1 := (Nat.mul_one _).symm
    _ ≤ R * C := Nat.mul_le_mul_left _ hC
    _ < 2 ^ 32 := h

/-- The pooling loops of `Max2d`, writing into a local `ret` of `M` rows and `N`
columns while the column loop runs to `N'`. -/
theorem Max2d_loop [Zero α] [LinearOrder α] (KERNEL : Nat) (t : NNArray α ROWS COLS)
    (a : Nat → Nat → α) (ht : t.Holds a) (hK : 1 ≤ KERNEL) (M N N' : Nat) (hN : N' = N)
    (hM : M * KERNEL ≤ ROWS) (hNC : N * KERNEL ≤ COLS) :
    ∃ ret : NNArray α M N,
      forLoop M (fun r ret =>
        forLoop N' (fun c (ret : NNArray α M N) => do
          let max ← t.elemAt (toInt (u32 (r * KERNEL))) (toInt (u32 (c * KERNEL)))
          let max ← forLoop KERNEL (fun kr max =>
            forLoop KERNEL (fun kc (max : TrackedNumber α) => do
              let e ← t.elemAt (toInt (u32 (r * KERNEL + kr))) (toInt (u32 (c * KERNEL + kc)))
              pure (max.makeMax e)) max) max
          ret.assignAt (toInt r) (toInt c) max) ret) create = some ret ∧
      ret.d_store.length = M * N ∧
      ∀ r, r < M → ∀ c, c < N →
        ∃ e, ret.d_store[r * N + c]? = some e ∧
          IsGreatest {x | ∃ kr kc, kr < KERNEL ∧ kc < KERNEL ∧
            x = a (r * KERNEL + kr) (c * KERNEL + kc)} e.getVal := by
  subst hN
  have hsz := ht.2.1
  have hKpos : 0 < KERNEL := hK
  have hout : M * N' < 2 ^ 32 := by
    have h1 : M ≤ ROWS := le_trans (Nat.le_mul_of_pos_right M hKpos) hM
    have h2 : N' ≤ COLS := le_trans (Nat.le_mul_of_pos_right N' hKpos) hNC
    exact lt_of_le_of_lt (Nat.mul_le_mul h1 h2) hsz
  simp only [Option.bind_eq_bind, Option.pure_def]
  refine forLoop_fill_post
    (fun n (ret : NNArray α M N') =>
      ret.d_store.length = M * N' ∧
      ∀ p, p < n → ∃ e, ret.d_store[p]? = some e ∧
          IsGreatest {x | ∃ kr kc, kr < KERNEL ∧ kc < KERNEL ∧
            x = a (p / N' * KERNEL + kr) (p % N' * KERNEL + kc)} e.getVal)
    _ _ _ _ _ ⟨create_length hout, by simp⟩ ?_ ?_
  · intro r c ret hr hc ⟨hl, hpre⟩
    have hq := idx_lt hr hc
    have hread : ∀ kr kc, kr < KERNEL → kc < KERNEL →
        ∃ e, t.elemAt (toInt (u32 (r * KERNEL + kr))) (toInt (u32 (c * KERNEL + kc))) = some e ∧
          e.getVal = a (r * KERNEL + kr) (c * KERNEL + kc) := by
      intro kr kc hkr hkc
      have h1 : r * KERNEL + kr < ROWS := lt_of_lt_of_le (idx_lt hr hkr) hM
      have h2 : c * KERNEL + kc < COLS := lt_of_lt_of_le (idx_lt hc hkc) hNC
      obtain ⟨e, he, hev⟩ := ht.get h1 h2
      have hidx := idx_lt h1 h2
      have hC32 : COLS < 2 ^ 32 := by
        rw [Nat.mul_comm] at hsz
        exact dim_lt_of_size hsz (by omega)
      have hR32 : ROWS < 2 ^ 32 := dim_lt_of_size hsz (by omega)
      rw [u32_eq (by omega), u32_eq (by omega), elemAt_toInt t (by omega)]
      exact ⟨e, he, hev⟩
    dsimp only
    obtain ⟨e0, he0, he0v⟩ := hread 0 0 hKpos hKpos
    simp only [Nat.add_zero] at he0 he0v
    rw [he0]
    simp only [Option.some_bind]
    obtain ⟨mx, hmx, hub, hmem⟩ := forLoop_fill_post
      (fun m (mx : TrackedNumber α) =>
        (∀ q, q < m → a (r * KERNEL + q / KERNEL) (c * KERNEL + q % KERNEL) ≤ mx.getVal) ∧
        ∃ kr kc, kr < KERNEL ∧ kc < KERNEL ∧
          mx.getVal = a (r * KERNEL + kr) (c * KERNEL + kc))
      (fun (mx : TrackedNumber α) =>
        (∀ q, q < KERNEL * KERNEL →
          a (r * KERNEL + q / KERNEL) (c * KERNEL + q % KERNEL) ≤ mx.getVal) ∧
        ∃ kr kc, kr < KERNEL ∧ kc < KERNEL ∧
          mx.getVal = a (r * KERNEL + kr) (c * KERNEL + kc))
      KERNEL KERNEL
      (fun kr kc (max : TrackedNumber α) =>
        (t.elemAt (toInt (u32 (r * KERNEL + kr))) (toInt (u32 (c * KERNEL + kc)))).bind
          fun e => some (max.makeMax e))
      e0 ⟨by simp, 0, 0, hKpos, hKpos, by simpa using he0v⟩
      (by
        intro kr kc mx hkr hkc ⟨hub, kr', kc', hkr', hkc', hmem⟩
        obtain ⟨e, he, hev⟩ := hread kr kc hkr hkc
        dsimp only
        rw [he]
        refine ⟨_, rfl, ?_, ?_⟩
        · intro q hqq
          rw [TrackedNumber.getVal_makeMax]
          rcases Nat.lt_succ_iff_lt_or_eq.mp hqq with h | h
          · exact le_trans (hub q h) (le_max_left _ _)
          · subst h
            rw [idx_div hkc, idx_mod hkc, hev]
            exact le_max_right _ _
        · rw [TrackedNumber.getVal_makeMax]
          rcases max_choice mx.getVal e.getVal with h | h
          · exact ⟨kr', kc', hkr', hkc', by rw [h, hmem]⟩
          · exact ⟨kr, kc, hkr, hkc, by rw [h, hev]⟩)
      (fun s hs => hs)
    rw [hmx]
    simp only [Option.some_bind]
    rw [assignAt_toInt ret _ (by omega) (by omega)]
    refine ⟨_, rfl, by simp [hl], ?_⟩
    intro p hp
    rcases Nat.lt_succ_iff_lt_or_eq.mp hp with h | h
    · simp only
      rw [List.getElem?_set_ne (by omega)]
      exact hpre p h
    · subst h
      refine ⟨mx, by simp [List.getElem?_set, hl, hq], ?_⟩
      rw [idx_div hc, idx_mod hc]
      refine ⟨hmem, ?_⟩
      rintro x ⟨kr, kc, hkr, hkc, rfl⟩
      have := hub (kr * KERNEL + kc) (idx_lt hkr hkc)
      rwa [idx_div hkc, idx_mod hkc] at this
  · intro ret ⟨hl, hval⟩
    refine ⟨hl, fun r hr c hc => ?_⟩
    have := hval _ (idx_lt hr hc)
    rwa [idx_div hc, idx_mod hc] at this

/-- C10: for an R×C tensor holding `a` and a kernel size `K ≥ 1` with `R / K = C / K`
(every square tensor), whether or not `K` divides `R` and `C`, `Max2d<K>` returns a
result: the `(R/K)×(C/K)` tensor whose element `(r, c)` is the maximum of the block
`a (r*K+kr) (c*K+kc)`, `kr, kc < K`. No shape error is raised; the rows and columns
past the last whole block are not read. -/
theorem Max2d_blocks [Zero α] [LinearOrder α] (KERNEL : Nat) (t : NNArray α ROWS COLS)
    (a : Nat → Nat → α) (ht : t.Holds a) (hK : 1 ≤ KERNEL)
    (hsq : ROWS / KERNEL = COLS / KERNEL) :
    ∃ ret, t.Max2d KERNEL = some ret ∧
      ret.d_store.length = (ROWS / KERNEL) * (COLS / KERNEL) ∧
      ∀ r, r < ROWS / KERNEL → ∀ c, c < COLS / KERNEL →
        ∃ e, ret.elemAt (toInt r) (toInt c) = some e ∧
          IsGreatest {x | ∃ kr kc, kr < KERNEL ∧ kc < KERNEL ∧
            x = a (r * KERNEL + kr) (c * KERNEL + kc)} e.getVal := by
  have hsz := ht.2.1
  obtain ⟨ret, hret, hl, hval⟩ := Max2d_loop KERNEL t a ht hK (ROWS / KERNEL) (ROWS / KERNEL)
    (COLS / KERNEL) hsq.symm (Nat.div_mul_le_self ROWS KERNEL)
    (by rw [hsq]; exact Nat.div_mul_le_self COLS KERNEL)
  have hout : ROWS / KERNEL * (COLS / KERNEL) < 2 ^ 32 :=
    lt_of_le_of_lt (Nat.mul_le_mul (Nat.div_le_self _ _) (Nat.div_le_self _ _)) hsz
  unfold Max2d
  rw [if_neg (by simp only [not_or, not_not]; exact ⟨by omega, hsq⟩)]
  simp only [Option.bind_eq_bind, Option.pure_def] at hret ⊢
  rw [hret]
  refine ⟨_, rfl, by rw [hl, hsq], fun r hr c hc => ?_⟩
  have hq := idx_lt hr hc
  have e1 : (⟨ret.d_store⟩ : NNArray α (ROWS / KERNEL) (COLS / KERNEL)).elemAt (toInt r)
      (toInt c) = ret.d_store[r * (COLS / KERNEL) + c]? := elemAt_toInt _ (by omega)
  have e2 : r * (COLS / KERNEL) + c = r * (ROWS / KERNEL) + c := by rw [hsq]
  rw [e1, e2]
  exact hval r hr c (by rw [hsq]; exact hc)

/-- C10 at a 3×3 tensor with kernel size 2. -/
theorem Max2d_blocks_witness :
    mB.Holds fB ∧ 1 ≤ 2 ∧ 3 / 2 = 3 / 2 ∧
      ∃ ret, mB.Max2d 2 = some ret ∧ ret.d_store.length = (3 / 2) * (3 / 2) ∧
        ∀ r, r < 3 / 2 → ∀ c, c < 3 / 2 →
          ∃ e, ret.elemAt (toInt r) (toInt c) = some e ∧
            IsGreatest {x | ∃ kr kc, kr < 2 ∧ kc < 2 ∧ x = fB (r * 2 + kr) (c * 2 + kc)}
              e.getVal :=
  have h : mB.Holds fB := by unfold Holds; decide
  ⟨h, by decide, rfl, Max2d_blocks 2 mB fB h (by decide) rfl⟩

/-- C10, the claim as stated fails: `2` does not divide `3`, yet `Max2d<2>` on the
3×3 tensor `mB` returns a 1×1 result, the maximum `9` of the top left 2×2 block;
the third row and the third column are dropped. -/
theorem Max2d_three_by_three :
    mB.Holds fB ∧ ¬ (2 ∣ 3) ∧
      (mB.Max2d 2).map (fun ret => ret.d_store.map TrackedNumber.getVal) = some [9] := by
  refine ⟨by unfold Holds; decide, by decide, by decide⟩

/-- C3: on the 2×4 tensor `mC`, whose dimensions are both divisible by `2`,
`Max2d<2>` has no result: the local `ret` is a 1×1 tensor, not the 1×2 tensor of
the return type. -/
theorem Max2d_two_by_four :
    mC.Holds fC ∧ 2 ∣ 2 ∧ 2 ∣ 4 ∧ mC.Max2d 2 = none := by
  refine ⟨by unfold Holds; decide, by decide, by decide, by decide⟩

end NNArray

theorem toInt_zero : toInt 0 = 0 := by decide

theorem toUInt_toInt {n : Nat} (h : n < 2 ^ 32) : toUInt (toInt n) = n := by
  have h2 := toUInt_natCast h
  unfold toUInt at h2 ⊢
  rw [toInt_emod, h2]

namespace NNArray

variable {α : Type} {ROWS COLS : Nat}

/-- The scan of `xValueIndexOfColumn`: the row returned is the first one whose
product with `fact`, converted to `float`, is the greatest of the column. -/
theorem xValueIndexOfColumn_spec {φ : Type} [Mul α] [LinearOrder φ] (toFloat : α → φ)
    (t : NNArray α ROWS COLS)
    (a : Nat → Nat → α) (ht : t.Holds a) (hR : 1 ≤ ROWS) (col : Nat) (hcol : col < COLS)
    (fact : α) :
    ∃ r, t.xValueIndexOfColumn toFloat (toInt col) fact = some r ∧ r < ROWS ∧
      (∀ r', r' < ROWS → toFloat (fact * a r' col) ≤ toFloat (fact * a r col)) ∧
      (∀ r', r' < r → toFloat (fact * a r' col) < toFloat (fact * a r col)) := by
  have hsz := ht.2.1
  have hR32 : ROWS < 2 ^ 32 := dim_lt_of_size hsz (by omega)
  have hread : ∀ r, r < ROWS →
      ∃ e, t.elemAt (toInt r) (toInt col) = some e ∧ e.getVal = a r col := by
    intro r hr
    obtain ⟨e, he, hev⟩ := ht.get hr hcol
    have := idx_lt hr hcol
    rw [elemAt_toInt t (by omega)]
    exact ⟨e, he, hev⟩
  obtain ⟨e0, he0, he0v⟩ := hread 0 hR
  rw [toInt_zero] at he0
  unfold xValueIndexOfColumn
  rw [he0]
  simp only [Option.bind_eq_bind, Option.some_bind, Option.pure_def]
  obtain ⟨st, hst, r, hxr, hr, hxv, hub, hfirst⟩ := forLoop_inv
    (fun n (st : φ × Int) => ∃ r, st.2 = toInt r ∧ r < ROWS ∧
      st.1 = toFloat (fact * a r col) ∧
      (∀ r', r' < n → toFloat (fact * a r' col) ≤ st.1) ∧
      (∀ r', r' < r → toFloat (fact * a r' col) < st.1))
    ROWS
    (fun r (st : φ × Int) => (t.elemAt (toInt r) (toInt col)).bind fun e =>
      if toFloat (fact * e.getVal) > st.1 then some (toFloat (fact * e.getVal), toInt r)
      else some st)
    (toFloat (fact * e0.getVal), 0)
    ⟨0, toInt_zero.symm, hR, by rw [he0v], by simp, by simp⟩
    (by
      intro n st hn ⟨r, hxr, hr, hxv, hub, hfirst⟩
      obtain ⟨e, he, hev⟩ := hread n hn
      dsimp only
      rw [he]
      simp only [Option.some_bind, hev]
      by_cases hgt : toFloat (fact * a n col) > st.1
      · rw [if_pos hgt]
        refine ⟨(toFloat (fact * a n col), toInt n), rfl, n, ?_, hn, ?_, ?_, ?_⟩
        · dsimp only
        · dsimp only
        · intro r' hr'
          rcases Nat.lt_succ_iff_lt_or_eq.mp hr' with h | h
          · exact le_of_lt (lt_of_le_of_lt (hub r' h) hgt)
          · subst h; exact le_refl _
        · intro r' hr'
          exact lt_of_le_of_lt (hub r' hr') hgt
      · rw [if_neg hgt]
        refine ⟨st, rfl, r, hxr, hr, hxv, ?_, hfirst⟩
        intro r' hr'
        rcases Nat.lt_succ_iff_lt_or_eq.mp hr' with h | h
        · exact hub r' h
        · subst h; exact not_lt.mp hgt)
  rw [hst]
  refine ⟨r, ?_, hr, ?_, ?_⟩
  · simp only [Option.some_bind, hxr]
    rw [toUInt_toInt (by omega)]
  · intro r' hr'
    rw [← hxv]
    exact hub r' hr'
  · intro r' hr'
    rw [← hxv]
    exact hfirst r' hr'

/-- With a conversion to `float` that keeps the order of the values strictly, as
for the value type `float` itself, `maxValueIndexOfColumn(col)` returns the smallest
row index whose element has the maximum raw value of the column, and
`minValueIndexOfColumn(col)` the smallest row index whose element has the minimum
raw value of the column. -/
theorem valueIndexOfColumn_exact {φ : Type} [LinearOrderedRing α] [LinearOrder φ]
    (toFloat : α → φ) (hmono : StrictMono toFloat) (t : NNArray α ROWS COLS)
    (a : Nat → Nat → α) (ht : t.Holds a) (hR : 1 ≤ ROWS) (col : Nat) (hcol : col < COLS) :
    (∃ r, t.maxValueIndexOfColumn toFloat (toInt col) = some r ∧ r < ROWS ∧
      (∀ r', r' < ROWS → a r' col ≤ a r col) ∧ (∀ r', r' < r → a r' col < a r col)) ∧
    (∃ r, t.minValueIndexOfColumn toFloat (toInt col) = some r ∧ r < ROWS ∧
      (∀ r', r' < ROWS → a r col ≤ a r' col) ∧ (∀ r', r' < r → a r col < a r' col)) := by
  constructor
  · obtain ⟨r, h, hr, h1, h2⟩ := xValueIndexOfColumn_spec toFloat t a ht hR col hcol 1
    refine ⟨r, h, hr, fun r' hr' => ?_, fun r' hr' => ?_⟩
    · simpa [hmono.le_iff_le] using h1 r' hr'
    · simpa [hmono.lt_iff_lt] using h2 r' hr'
  · obtain ⟨r, h, hr, h1, h2⟩ := xValueIndexOfColumn_spec toFloat t a ht hR col hcol (-1)
    refine ⟨r, h, hr, fun r' hr' => ?_, fun r' hr' => ?_⟩
    · simpa [hmono.le_iff_le] using h1 r' hr'
    · simpa [hmono.lt_iff_lt] using h2 r' hr'

/-- C5: on the 2×1 tensor of the `double` values `16777216` and `16777217`, the
maximum raw value of column `0` is in row `1`, and `maxValueIndexOfColumn(0)`
returns row `0`: both values are the same `float`, so the strict comparison of the
`float` locals never leaves the first row. -/
theorem maxValueIndexOfColumn_narrowed :
    mD.Holds fD ∧ fD 0 0 < fD 1 0 ∧
    mD.maxValueIndexOfColumn toFloat32 (toInt 0) = some 0 := by
  refine ⟨by unfold Holds; decide, by decide, by decide⟩

end NNArray

/-- C9: for an R×C tensor, tracked or plain, `operator()(row, col)` fails exactly
when the flat index `(row*C + col) mod 2^32` is not below the element count `R*C`.
An access with `row` in `[0,R)` and `col` in `[0,C)` has the flat index
`row*C + col`; any access whose flat index is `i*C + j` for an in-range `(i, j)` is
not rejected and returns the element of row `i`, column `j`, whatever `(row, col)`
was asked for. -/
theorem elemAt_flatIndex {α : Type} {ROWS COLS : Nat} (t : NNArray α ROWS COLS)
    (s : SArray α ROWS COLS) (ht : t.d_store.length = ROWS * COLS)
    (hs : s.d_store.length = ROWS * COLS) (hsz : ROWS * COLS < 2 ^ 32) (x y : Int) :
    (t.elemAt x y = none ↔ ROWS * COLS ≤ flatIndex COLS x y) ∧
    (s.elemAt x y = none ↔ ROWS * COLS ≤ flatIndex COLS x y) ∧
    (0 ≤ x → x < ROWS → 0 ≤ y → y < COLS →
      flatIndex COLS x y = x.toNat * COLS + y.toNat) ∧
    (∀ i j, i < ROWS → j < COLS → flatIndex COLS x y = i * COLS + j →
      t.elemAt x y = t.elemAt (toInt i) (toInt j) ∧ t.elemAt x y ≠ none ∧
      s.elemAt x y = s.elemAt (toInt i) (toInt j) ∧ s.elemAt x y ≠ none) := by
  refine ⟨?_, ?_, ?_, ?_⟩
  · unfold NNArray.elemAt
    rw [List.getElem?_eq_none_iff, ht]
  · unfold SArray.elemAt
    rw [List.getElem?_eq_none_iff, hs]
  · intro hx0 hxR hy0 hyC
    obtain ⟨i, rfl⟩ := Int.eq_ofNat_of_zero_le hx0
    obtain ⟨j, rfl⟩ := Int.eq_ofNat_of_zero_le hy0
    have hi : i < ROWS := by exact_mod_cast hxR
    have hj : j < COLS := by exact_mod_cast hyC
    have := idx_lt hi hj
    have h : ((i : Int) * (COLS : Int) + (j : Int)) = ((i * COLS + j : Nat) : Int) := by
      push_cast; rfl
    unfold flatIndex
    rw [h, toUInt_natCast (by omega)]
    simp
  · intro i j hi hj hidx
    have hlt := idx_lt hi hj
    have h32 : i * COLS + j < 2 ^ 32 := by omega
    refine ⟨?_, ?_, ?_, ?_⟩
    · unfold NNArray.elemAt
      rw [hidx, flatIndex_toInt h32]
    · unfold NNArray.elemAt
      rw [hidx, Ne, List.getElem?_eq_none_iff]
      omega
    · unfold SArray.elemAt
      rw [hidx, flatIndex_toInt h32]
    · unfold SArray.elemAt
      rw [hidx, Ne, List.getElem?_eq_none_iff]
      omega

/-- C9 at the access `(0, 2)` of the 2×2 tensors `mA` and `sA`. -/
theorem elemAt_flatIndex_witness :
    mA.d_store.length = 2 * 2 ∧ sA.d_store.length = 2 * 2 ∧ 2 * 2 < 2 ^ 32 ∧
    ((mA.elemAt 0 2 = none ↔ 2 * 2 ≤ flatIndex 2 0 2) ∧
    (sA.elemAt 0 2 = none ↔ 2 * 2 ≤ flatIndex 2 0 2) ∧
    ((0 : Int) ≤ 0 → (0 : Int) < (2 : Nat) → (0 : Int) ≤ 2 → (2 : Int) < (2 : Nat) →
      flatIndex 2 0 2 = (0 : Int).toNat * 2 + (2 : Int).toNat) ∧
    (∀ i j, i < 2 → j < 2 → flatIndex 2 0 2 = i * 2 + j →
      mA.elemAt 0 2 = mA.elemAt (toInt i) (toInt j) ∧ mA.elemAt 0 2 ≠ none ∧
      sA.elemAt 0 2 = sA.elemAt (toInt i) (toInt j) ∧ sA.elemAt 0 2 ≠ none)) :=
  ⟨by decide, by decide, by decide, elemAt_flatIndex mA sA (by decide) (by decide) (by decide) 0 2⟩

/-- C9, the claim as stated fails: in the 2×2 tensors `mA` and `sA` the access
`(0, 2)`, whose column is out of range, returns the element of position `(1, 0)`,
and the access `(1, -1)` returns the element of position `(0, 1)`. -/
theorem elemAt_wraps :
    mA.Holds fA ∧
    mA.elemAt 0 2 = some (TrackedNumber.leaf 3 0) ∧
    mA.elemAt 1 0 = some (TrackedNumber.leaf 3 0) ∧
    mA.elemAt 1 (-1) = some (TrackedNumber.leaf 2 0) ∧
    mA.elemAt 0 1 = some (TrackedNumber.leaf 2 0) ∧
    sA.elemAt 0 2 = some 3 ∧ sA.elemAt 1 0 = some 3 ∧
    sA.elemAt 1 (-1) = some 2 ∧ sA.elemAt 0 1 = some 2 := by
  refine ⟨by unfold NNArray.Holds; decide, by decide, by decide, by decide, by decide,
    by decide, by decide, by decide, by decide⟩

theorem plain_elemAt_toInt {α : Type} {ROWS COLS : Nat} (s : SArray α ROWS COLS) {i j : Nat}
    (h : i * COLS + j < 2 ^ 32) :
    s.elemAt (toInt i) (toInt j) = s.d_store[i * COLS + j]? := by
  unfold SArray.elemAt
  rw [flatIndex_toInt h]

theorem plain_flat {α : Type} {ROWS COLS : Nat} {s : SArray α ROWS COLS}
    {d : Nat → Nat → α} (h : s.Holds d) {p : Nat} (hp : p < ROWS * COLS) :
    s.d_store[p]? = some (d (p / COLS) (p % COLS)) := by
  have hC : 0 < COLS := by
    rcases Nat.eq_zero_or_pos COLS with h0 | h0
    · subst h0; simp at hp
    · exact h0
  have hdiv : p / COLS < ROWS := Nat.div_lt_of_lt_mul (by rwa [Nat.mul_comm] at hp)
  have hmod : p % COLS < COLS := Nat.mod_lt _ hC
  have e : p / COLS * COLS + p % COLS = p := by
    rw [Nat.mul_comm]; exact Nat.div_add_mod p COLS
  have := h.2.2 _ hdiv _ hmod
  rw [plain_elemAt_toInt s (by have := h.2.1; omega), e] at this
  exact this

namespace NNArray

variable {α : Type} {ROWS COLS : Nat}

theorem holds_congr {t : NNArray α ROWS COLS} {a a' : Nat → Nat → α} (h : t.Holds a)
    (ha : ∀ i, i < ROWS → ∀ j, j < COLS → a i j = a' i j) : t.Holds a' :=
  ⟨h.1, h.2.1, fun i hi j hj => by rw [← ha i hi j hj]; exact h.2.2 i hi j hj⟩

/-- C6: for a tracked tensor `W` holding `w` and a plain tensor `D` of the same
shape holding `d`, `W -= D` leaves a tensor of the same shape and element count
whose element `(r, c)` has the value `w r c - d r c`. -/
theorem subAssign_holds [Zero α] [Sub α] (W : NNArray α ROWS COLS) (D : SArray α ROWS COLS)
    (w d : Nat → Nat → α) (hW : W.Holds w) (hD : D.Holds d) :
    ∃ W', W.subAssign D = some W' ∧ W'.d_store.length = W.d_store.length ∧
      W'.Holds (fun r c => w r c - d r c) := by
  have hlen := hW.1
  have hsz := hW.2.1
  unfold subAssign
  rw [hlen]
  refine forLoop_post
    (fun pos (w' : NNArray α ROWS COLS) => w'.d_store.length = ROWS * COLS ∧
      (∀ q, q < pos → w'.d_store[q]?.map TrackedNumber.getVal =
        some (w (q / COLS) (q % COLS) - d (q / COLS) (q % COLS))) ∧
      ∀ q, pos ≤ q → w'.d_store[q]? = W.d_store[q]?)
    _ _ _ _ ⟨hlen, by simp, by simp⟩ ?_ ?_
  · intro pos w' hpos ⟨hl, hdone, hrest⟩
    have h1 := hW.flat hpos
    rw [← hrest pos (le_refl _)] at h1
    simp only [Option.map_eq_some'] at h1
    obtain ⟨old, hold, holdv⟩ := h1
    have h2 := plain_flat hD hpos
    simp only [hold, h2, Option.bind_eq_bind, Option.some_bind, Option.pure_def]
    refine ⟨_, rfl, by simp [hl], ?_, ?_⟩
    · intro q hq
      rcases Nat.lt_succ_iff_lt_or_eq.mp hq with h | h
      · simp only
        rw [List.getElem?_set_ne (by omega)]
        exact hdone q h
      · subst h
        simp [List.getElem?_set, hl, hpos, holdv]
    · intro q hq
      simp only
      rw [List.getElem?_set_ne (by omega)]
      exact hrest q (by omega)
  · intro W' ⟨hl, hdone, _⟩
    refine ⟨by rw [hl], ?_⟩
    refine holds_congr (holds_of_flat W' _ hl hsz hdone) ?_
    intro i hi j hj
    simp only [idx_div hj, idx_mod hj]

/-- C6 at the 2×2 tensors `mA` and `sA`. -/
theorem subAssign_holds_witness :
    mA.Holds fA ∧ sA.Holds (fun i j => fA i j) ∧
    ∃ W', mA.subAssign sA = some W' ∧ W'.d_store.length = mA.d_store.length ∧
      W'.Holds (fun r c => fA r c - fA r c) :=
  have h1 : mA.Holds fA := by unfold Holds; decide
  have h2 : sA.Holds (fun i j => fA i j) := by unfold SArray.Holds; decide
  ⟨h1, h2, subAssign_holds mA sA fA (fun i j => fA i j) h1 h2⟩

end NNArray

namespace NNArray

variable {α : Type} {ROWS COLS : Nat}

theorem foldl_exp_getVal (l : List (TrackedNumber ℝ)) (lemax acc : TrackedNumber ℝ) :
    (l.foldl (fun sum v => sum.add ((v.sub lemax).makeFunc Real.exp)) acc).getVal =
      acc.getVal + (l.map (fun v => Real.exp (v.getVal - lemax.getVal))).sum := by
  induction l generalizing acc with
  | nil => simp
  | cons x xs ih =>
    rw [List.foldl_cons, ih]
    simp [add_assoc]

/-- C4: for a non-empty tensor of real values, `logSoftMax()` returns a tensor of
the same element count whose values `v` satisfy `∑ exp v = 1`, the sum ranging over
all elements of the whole tensor. -/
theorem logSoftMax_exp_sum (t : NNArray ℝ ROWS COLS)
    (hlen : t.d_store.length = ROWS * COLS) (hsz : ROWS * COLS < 2 ^ 32)
    (hne : 0 < ROWS * COLS) :
    ∃ ret, t.logSoftMax Real.exp Real.log = some ret ∧
      ret.d_store.length = ROWS * COLS ∧
      (ret.d_store.map (fun e => Real.exp e.getVal)).sum = 1 := by
  unfold logSoftMax
  have h0 : ∃ e0, t.d_store[0]? = some e0 := by
    have : 0 < t.d_store.length := by omega
    exact ⟨t.d_store[0], List.getElem?_eq_getElem this⟩
  obtain ⟨e0, he0⟩ := h0
  rw [he0]
  simp only [Option.bind_eq_bind, Option.some_bind, Option.pure_def]
  obtain ⟨lemax, hmax, -⟩ := forLoop_inv (fun _ (_ : TrackedNumber ℝ) => True)
    (t.d_store.length - 1)
    (fun k (lemax : TrackedNumber ℝ) =>
      (t.d_store[1 + k]?).bind fun e => some (lemax.makeMax e))
    e0 trivial
    (by
      intro k m hk _
      have hk' : 1 + k < t.d_store.length := by omega
      dsimp only
      rw [List.getElem?_eq_getElem hk']
      exact ⟨_, rfl, trivial⟩)
  unfold forRange
  rw [hmax]
  simp only [Option.some_bind]
  set S := t.d_store.foldl (fun sum v => sum.add ((v.sub lemax).makeFunc Real.exp))
    (TrackedNumber.ofVal 0) with hS
  have hSv : S.getVal = (t.d_store.map (fun v => Real.exp (v.getVal - lemax.getVal))).sum := by
    rw [hS, foldl_exp_getVal]
    simp
  have hSpos : 0 < S.getVal := by
    rw [hSv]
    apply List.sum_pos
    · intro x hx
      simp only [List.mem_map] at hx
      obtain ⟨v, _, rfl⟩ := hx
      exact Real.exp_pos _
    · intro h
      rw [List.map_eq_nil_iff] at h
      rw [h] at hlen
      simp only [List.length_nil] at hlen
      omega
  rw [create_length hsz]
  refine forLoop_post
    (fun pos (ret : NNArray ℝ ROWS COLS) => ret.d_store.length = ROWS * COLS ∧
      ∀ q, q < pos → ret.d_store[q]? =
        t.d_store[q]?.map (fun e => (e.sub lemax).sub (S.makeFunc Real.log)))
    _ _ _ _ ⟨create_length hsz, by simp⟩ ?_ ?_
  · intro pos ret hpos ⟨hl, hdone⟩
    have hp' : pos < t.d_store.length := by omega
    dsimp only
    rw [List.getElem?_eq_getElem hp']
    simp only [Option.some_bind]
    refine ⟨_, rfl, by simp [hl], ?_⟩
    intro q hq
    rcases Nat.lt_succ_iff_lt_or_eq.mp hq with h | h
    · simp only
      rw [List.getElem?_set_ne (by omega)]
      exact hdone q h
    · subst h
      simp [List.getElem?_set, hl, hpos, List.getElem?_eq_getElem hp']
  · intro ret ⟨hl, hdone⟩
    refine ⟨hl, ?_⟩
    have hret : ret.d_store =
        t.d_store.map (fun e => (e.sub lemax).sub (S.makeFunc Real.log)) := by
      apply List.ext_getElem?
      intro q
      by_cases hq : q < ROWS * COLS
      · rw [hdone q hq, List.getElem?_map]
      · rw [List.getElem?_eq_none (by omega), List.getElem?_eq_none (by simp; omega)]
    rw [hret, List.map_map]
    have hfun : ((fun e : TrackedNumber ℝ => Real.exp e.getVal) ∘
        fun e => (e.sub lemax).sub (S.makeFunc Real.log)) =
        fun v : TrackedNumber ℝ => Real.exp (v.getVal - lemax.getVal) * S.getVal⁻¹ := by
      funext v
      simp only [Function.comp, TrackedNumber.getVal_sub, TrackedNumber.getVal_makeFunc]
      rw [Real.exp_sub, Real.exp_log hSpos, div_eq_mul_inv]
    rw [hfun, List.sum_map_mul_right, ← hSv]
    exact mul_inv_cancel₀ (ne_of_gt hSpos)

/-- C4 at the 1×2 tensor of the real values `0` and `1`. -/
theorem logSoftMax_exp_sum_witness :
    (⟨[TrackedNumber.leaf 0 0, TrackedNumber.leaf 1 0]⟩ : NNArray ℝ 1 2).d_store.length
      = 1 * 2 ∧ 1 * 2 < 2 ^ 32 ∧ 0 < 1 * 2 ∧
    ∃ ret, (⟨[TrackedNumber.leaf 0 0, TrackedNumber.leaf 1 0]⟩ :
        NNArray ℝ 1 2).logSoftMax Real.exp Real.log = some ret ∧
      ret.d_store.length = 1 * 2 ∧
      (ret.d_store.map (fun e => Real.exp e.getVal)).sum = 1 :=
  ⟨rfl, by decide, by decide, logSoftMax_exp_sum _ rfl (by decide) (by decide)⟩

end NNArray

theorem subAssign_store {α : Type} [Zero α] [Sub α] {ROWS COLS : Nat}
    (t : NNArray α ROWS COLS) (rhs : SArray α ROWS COLS)
    (hlen : rhs.d_store.length = t.d_store.length) :
    t.subAssign rhs = some ⟨List.zipWith (fun n d => TrackedNumber.ofVal (n.getVal - d))
      t.d_store rhs.d_store⟩ := by
  obtain ⟨w, hw, hl, hq⟩ := forLoop_inv
    (fun pos (w : NNArray α ROWS COLS) => w.d_store.length = t.d_store.length ∧
      ∀ q, w.d_store[q]? = if q < pos then
        (List.zipWith (fun n d => TrackedNumber.ofVal (n.getVal - d)) t.d_store rhs.d_store)[q]?
        else t.d_store[q]?)
    t.d_store.length
    (fun pos (w : NNArray α ROWS COLS) =>
      (w.d_store[pos]?).bind fun old => (rhs.d_store[pos]?).bind fun delta =>
        some ⟨w.d_store.set pos (TrackedNumber.ofVal (old.getVal - delta))⟩)
    t ⟨rfl, by simp⟩
    (by
      intro pos w hpos ⟨hl, hq⟩
      have h1 := hq pos
      rw [if_neg (lt_irrefl _), List.getElem?_eq_getElem hpos] at h1
      have hpos' : pos < rhs.d_store.length := by omega
      dsimp only
      rw [h1, List.getElem?_eq_getElem hpos']
      refine ⟨_, rfl, by simp [hl], ?_⟩
      intro q
      simp only [Option.some_bind]
      by_cases hqp : q = pos
      · subst hqp
        simp [List.getElem?_set, hl, hpos, List.getElem?_zipWith,
          List.getElem?_eq_getElem hpos, List.getElem?_eq_getElem hpos']
      · rw [List.getElem?_set_ne (Ne.symm hqp), hq q]
        by_cases hlt : q < pos
        · rw [if_pos hlt, if_pos (by omega)]
        · rw [if_neg hlt, if_neg (by omega)])
  unfold NNArray.subAssign
  simp only [Option.bind_eq_bind, Option.pure_def]
  rw [hw]
  congr 1
  cases w with
  | mk ws =>
    congr 1
    apply List.ext_getElem?
    intro q
    simp only at hq hl
    rw [hq q]
    by_cases hlt : q < t.d_store.length
    · rw [if_pos hlt]
    · rw [if_neg hlt, List.getElem?_eq_none (by omega),
        List.getElem?_eq_none (by simp; omega)]

theorem tensor_learn_step {α : Type} [Zero α] [Sub α] [Mul α] (lr : α) (t : Tensor α) :
    t.subAssign (t.getAccumGrad.mulAssign lr) = some (sgdStep lr t) := by
  unfold Tensor.subAssign
  rw [subAssign_store _ _ (by simp [Tensor.getAccumGrad, NNArray.getGrad, SArray.mulAssign])]
  simp only [Option.map_some', sgdStep, Tensor.getAccumGrad, NNArray.getGrad,
    SArray.mulAssign, List.map_map]
  congr 2
  apply List.ext_getElem?
  intro q
  simp only [List.getElem?_zipWith, List.getElem?_map]
  cases t.d_store[q]? <;> simp

theorem sgdStep_idem {α : Type} [Ring α] (lr : α) (t : Tensor α) :
    sgdStep lr (sgdStep lr t) = sgdStep lr t := by
  simp [sgdStep, Function.comp_def]

theorem learn_members {α : Type} [Ring α] (lr : α) (ps : List Nat) (L : TensorLayer α)
    (hvalid : ∀ p, p ∈ ps → p < L.members.length) :
    ∃ L', ps.foldlM (fun (L : TensorLayer α) p => do
        let t ← L.members[p]?
        let grad1 := t.getAccumGrad
        let grad1 := grad1.mulAssign lr
        let t ← t.subAssign grad1
        pure { L with members := L.members.set p t }) L = some L' ∧
      L'.d_params = L.d_params ∧ L'.members.length = L.members.length ∧
      ∀ q t, L.members[q]? = some t →
        L'.members[q]? = some (if q ∈ ps then sgdStep lr t else t) := by
  induction ps generalizing L with
  | nil => exact ⟨L, rfl, rfl, rfl, by simp⟩
  | cons p ps ih =>
    have hp : p < L.members.length := hvalid p (by simp)
    obtain ⟨L', hL', hd, hl, hm⟩ := ih
      { L with members := L.members.set p (sgdStep lr L.members[p]) }
      (by intro q hq; simpa using hvalid q (by simp [hq]))
    refine ⟨L', ?_, hd, by simpa using hl, ?_⟩
    · rw [List.foldlM_cons]
      simp only [Option.bind_eq_bind, Option.pure_def, List.getElem?_eq_getElem hp,
        Option.some_bind, tensor_learn_step]
      simp only [Option.bind_eq_bind, Option.pure_def, Option.some_bind,
        tensor_learn_step] at hL'
      exact hL'
    · intro q t hq
      by_cases hqp : q = p
      · subst hqp
        have ht : L.members[q] = t := by
          rw [List.getElem?_eq_getElem hp] at hq
          exact Option.some.inj hq
        have := hm q (sgdStep lr t) (by simp [List.getElem?_set, hp, ht])
        rw [this]
        by_cases hmem : q ∈ ps
        · simp [hmem, sgdStep_idem]
        · simp [hmem]
      · have := hm q t (by
          simp only
          rw [List.getElem?_set_ne (Ne.symm hqp)]
          exact hq)
        rw [this]
        simp [hqp]

namespace TensorLayer

variable {α : Type}

/-- C7: for a layer whose registered pointers all refer to tensors of the layer and
a learning rate `lr`, `learn(lr)` leaves the list of registered parameters unchanged
and every element of every registered tensor with the value it had before the call
minus `lr` times the gradient it had accumulated before the call; the shapes are
kept and tensors that are not registered are untouched. -/
theorem learn_sgd [CommRing α] (L : TensorLayer α) (lr : α)
    (hvalid : ∀ p, p ∈ L.d_params → p < L.members.length) :
    ∃ L', L.learn lr = some L' ∧ L'.d_params = L.d_params ∧
      L'.members.length = L.members.length ∧
      (∀ p t, p ∈ L.d_params → L.members[p]? = some t →
        ∃ t', L'.members[p]? = some t' ∧ t'.rows = t.rows ∧ t'.cols = t.cols ∧
          t'.d_store.map TrackedNumber.getVal =
            t.d_store.map (fun n => n.getVal - lr * n.getGrad)) ∧
      (∀ q, q ∉ L.d_params → L'.members[q]? = L.members[q]?) := by
  obtain ⟨L', hL', hd, hl, hm⟩ := learn_members lr L.d_params L hvalid
  refine ⟨L', hL', hd, hl, ?_, ?_⟩
  · intro p t hp ht
    refine ⟨sgdStep lr t, by rw [hm p t ht, if_pos hp], rfl, rfl, ?_⟩
    simp [sgdStep, Function.comp_def, mul_comm]
  · intro q hq
    by_cases hlt : q < L.members.length
    · have := hm q L.members[q] (List.getElem?_eq_getElem hlt)
      rw [this, if_neg hq, List.getElem?_eq_getElem hlt]
    · rw [List.getElem?_eq_none (by omega), List.getElem?_eq_none (by omega)]

/-- C7 at a layer of a 1×2 and a 1×1 tensor, with the learning rate `3`. -/
theorem learn_sgd_witness :
    (∀ p, p ∈ layerA.d_params → p < layerA.members.length) ∧
    ∃ L', layerA.learn 3 = some L' ∧ L'.d_params = layerA.d_params ∧
      L'.members.length = layerA.members.length ∧
      (∀ p t, p ∈ layerA.d_params → layerA.members[p]? = some t →
        ∃ t', L'.members[p]? = some t' ∧ t'.rows = t.rows ∧ t'.cols = t.cols ∧
          t'.d_store.map TrackedNumber.getVal =
            t.d_store.map (fun n => n.getVal - 3 * n.getGrad)) ∧
      (∀ q, q ∉ layerA.d_params → L'.members[q]? = layerA.members[q]?) :=
  have h : ∀ p, p ∈ layerA.d_params → p < layerA.members.length := by decide
  ⟨h, learn_sgd layerA 3 h⟩

end TensorLayer

theorem foldl_preserves {σ β : Type} (P : σ → Prop) (f : σ → β → σ) (l : List β) (s : σ)
    (h0 : P s) (hstep : ∀ s x, P s → P (f s x)) : P (l.foldl f s) := by
  induction l generalizing s with
  | nil => exact h0
  | cons x xs ih => exact ih (f s x) (hstep s x h0)

/-- Registration by the constructors: `Linear` registers both of its tensors, the
weights and the bias, in `d_params`. The constructor of `Conv2d` has no result,
whatever its template arguments: it pushes to `d_members`, which no layer
declares. -/
theorem create_registration {α : Type} [Zero α] [Mul α] (IN OUT KERNEL OUTLAYERS : Nat)
    (scale : α) (draws : Nat → Nat → α) :
    ((Linear.create IN OUT scale draws).d_params = [0, 1] ∧
      (Linear.create IN OUT scale draws).members.length = 2) ∧
    Conv2d.create KERNEL OUTLAYERS scale draws = none := by
  refine ⟨⟨rfl, rfl⟩, ?_⟩
  unfold Conv2d.create
  have h : TensorLayer.declares "d_members" = false := by decide
  rw [if_pos h]

/-- C8: the construction of a `Conv2d` layer with kernel size 3 and two output
layers has no result, because the constructor pushes the addresses of its tensors
to `d_members`, a member no layer declares, instead of `d_params`; no `Conv2d`
layer whose `d_params` holds its filters and biases comes to exist. The constructor
of `Linear` registers its two tensors in `d_params`. -/
theorem Conv2d_create_rejected :
    TensorLayer.declares "d_members" = false ∧
    TensorLayer.declares "d_params" = true ∧
    Conv2d.create 3 2 (1 : ℤ) (fun _ _ => 1) = none ∧
    (Linear.create 2 1 (1 : ℤ) (fun _ _ => 1)).d_params = [0, 1] := by
  refine ⟨by decide, by decide, ?_, rfl⟩
  unfold Conv2d.create
  have h : TensorLayer.declares "d_members" = false := by decide
  rw [if_pos h]

namespace NNArray

variable {α : Type} {ROWS COLS : Nat}

/-- C18: for an R×C tensor holding `a`, `flatViewRow()` (shape `(R*C)×1`) and
`flatViewCol()` (shape `1×(R*C)`) each hold exactly `R*C` elements, copies of the
source store, and the element at flat position `p` of either result has the value
of the source element `(p / C, p mod C)`. -/
theorem flatView_holds (t : NNArray α ROWS COLS) (a : Nat → Nat → α) (ht : t.Holds a) :
    u32 (ROWS * COLS) = ROWS * COLS ∧
    t.flatViewRow.d_store.length = ROWS * COLS ∧
    t.flatViewCol.d_store.length = ROWS * COLS ∧
    t.flatViewRow.d_store = t.d_store ∧ t.flatViewCol.d_store = t.d_store ∧
    t.flatViewRow.Holds (fun p _ => a (p / COLS) (p % COLS)) ∧
    t.flatViewCol.Holds (fun _ p => a (p / COLS) (p % COLS)) := by
  have hlen := ht.1
  have hsz := ht.2.1
  have hu : u32 (ROWS * COLS) = ROWS * COLS := u32_eq hsz
  refine ⟨hu, hlen, hlen, rfl, rfl, ?_, ?_⟩
  · refine ⟨by show t.d_store.length = _; rw [hu, Nat.mul_one]; exact hlen,
      by rw [hu, Nat.mul_one]; exact hsz, ?_⟩
    intro i hi j hj
    rw [hu] at hi
    have hj0 : j = 0 := by omega
    subst hj0
    rw [elemAt_toInt _ (by omega)]
    simp only [Nat.mul_one, Nat.add_zero]
    exact ht.flat hi
  · refine ⟨by show t.d_store.length = _; rw [hu, Nat.one_mul]; exact hlen,
      by rw [hu, Nat.one_mul]; exact hsz, ?_⟩
    intro i hi j hj
    rw [hu] at hj
    have hi0 : i = 0 := by omega
    subst hi0
    rw [elemAt_toInt _ (by rw [hu]; omega)]
    simp only [Nat.zero_mul, Nat.zero_add]
    exact ht.flat hj

/-- C18 at the 2×2 tensor `mA`. -/
theorem flatView_holds_witness :
    mA.Holds fA ∧
    (u32 (2 * 2) = 2 * 2 ∧
    mA.flatViewRow.d_store.length = 2 * 2 ∧
    mA.flatViewCol.d_store.length = 2 * 2 ∧
    mA.flatViewRow.d_store = mA.d_store ∧ mA.flatViewCol.d_store = mA.d_store ∧
    mA.flatViewRow.Holds (fun p _ => fA (p / 2) (p % 2)) ∧
    mA.flatViewCol.Holds (fun _ p => fA (p / 2) (p % 2))) :=
  have h : mA.Holds fA := by unfold Holds; decide
  ⟨h, flatView_holds mA fA h⟩

theorem norm_loop [Zero α] [Add α] [Div α] (t : NNArray α ROWS COLS) (sum : TrackedNumber α)
    (hlen : t.d_store.length = ROWS * COLS) (hsz : ROWS * COLS < 2 ^ 32) :
    ∃ ret : NNArray α ROWS COLS,
      forLoop (create : NNArray α ROWS COLS).d_store.length (fun pos ret =>
        (t.d_store[pos]?).bind fun e =>
          some ⟨ret.d_store.set pos (e.div sum)⟩) create = some ret ∧
      ret.d_store = t.d_store.map (fun e => e.div sum) := by
  rw [create_length hsz]
  refine forLoop_post
    (fun pos (ret : NNArray α ROWS COLS) => ret.d_store.length = ROWS * COLS ∧
      ∀ q, q < pos → ret.d_store[q]? = t.d_store[q]?.map (fun e => e.div sum))
    _ _ _ _ ⟨create_length hsz, by simp⟩ ?_ ?_
  · intro pos ret hpos ⟨hl, hdone⟩
    have hp' : pos < t.d_store.length := by omega
    dsimp only
    rw [List.getElem?_eq_getElem hp']
    simp only [Option.some_bind]
    refine ⟨_, rfl, by simp [hl], ?_⟩
    intro q hq
    rcases Nat.lt_succ_iff_lt_or_eq.mp hq with h | h
    · simp only
      rw [List.getElem?_set_ne (by omega)]
      exact hdone q h
    · subst h
      simp [List.getElem?_set, hl, hpos, List.getElem?_eq_getElem hp']
  · intro ret ⟨hl, hdone⟩
    apply List.ext_getElem?
    intro q
    by_cases hq : q < ROWS * COLS
    · rw [hdone q hq, List.getElem?_map]
    · rw [List.getElem?_eq_none (by omega), List.getElem?_eq_none (by simp; omega)]

/-- C14: for a tensor holding `a` whose elements sum to a nonzero `S`, the sum being
taken over the whole tensor, `norm()` returns a tensor of the same shape in which
element `(r, c)` has the value `a r c / S`; the returned values sum to `1`. -/
theorem norm_holds [Field α] (t : NNArray α ROWS COLS) (a : Nat → Nat → α) (ht : t.Holds a)
    (hS : (∑ i in Finset.range ROWS, ∑ j in Finset.range COLS, a i j) ≠ 0) :
    ∃ ret, t.norm = some ret ∧
      ret.Holds (fun r c =>
        a r c / ∑ i in Finset.range ROWS, ∑ j in Finset.range COLS, a i j) ∧
      (∑ r in Finset.range ROWS, ∑ c in Finset.range COLS,
        a r c / ∑ i in Finset.range ROWS, ∑ j in Finset.range COLS, a i j) = 1 := by
  have hlen := ht.1
  have hsz := ht.2.1
  obtain ⟨ret, hret, hstore⟩ := norm_loop t
    (t.d_store.foldl (fun sum v => sum.add v) (TrackedNumber.ofVal 0)) hlen hsz
  have hsum : (t.d_store.foldl (fun sum v => sum.add v) (TrackedNumber.ofVal 0)).getVal =
      ∑ i in Finset.range ROWS, ∑ j in Finset.range COLS, a i j := by
    rw [foldl_add_getVal t.d_store (fun q => a (q / COLS) (q % COLS)) _
      (fun q hq => ht.flat (by omega)), hlen, sum_range_flat ROWS COLS a]
    simp
  refine ⟨ret, ?_, ?_, ?_⟩
  · unfold norm
    simp only [Option.bind_eq_bind, Option.pure_def]
    exact hret
  · refine holds_congr (holds_of_flat ret
      (fun q => a (q / COLS) (q % COLS) /
        ∑ i in Finset.range ROWS, ∑ j in Finset.range COLS, a i j) ?_ hsz ?_) ?_
    · rw [hstore, List.length_map, hlen]
    · intro p hp
      have := ht.flat hp
      simp only [Option.map_eq_some'] at this
      obtain ⟨e, he, hev⟩ := this
      rw [hstore, List.getElem?_map, he]
      simp [hev, hsum]
    · intro i hi j hj
      simp only [idx_div hj, idx_mod hj]
  · simp only [div_eq_mul_inv]
    simp only [← Finset.sum_mul]
    exact mul_inv_cancel₀ hS

/-- C14 at the 2×2 rational tensor with rows `1 2` and `3 4`. -/
theorem norm_holds_witness :
    qA.Holds fQ ∧
    (∑ i in Finset.range 2, ∑ j in Finset.range 2, fQ i j) ≠ 0 ∧
    ∃ ret, qA.norm = some ret ∧
      ret.Holds (fun r c => fQ r c / ∑ i in Finset.range 2, ∑ j in Finset.range 2, fQ i j) ∧
      (∑ r in Finset.range 2, ∑ c in Finset.range 2,
        fQ r c / ∑ i in Finset.range 2, ∑ j in Finset.range 2, fQ i j) = 1 :=
  have h : qA.Holds fQ := by unfold Holds; decide
  have hS : (∑ i in Finset.range 2, ∑ j in Finset.range 2, fQ i j) ≠ 0 := by
    norm_num [Finset.sum_range_succ, fQ]
  ⟨h, hS, norm_holds qA fQ h hS⟩

end NNArray

theorem subSize_one {n : Nat} (h1 : 1 ≤ n) (h : n < 2 ^ 64) : subSize n 1 = n - 1 := by
  unfold subSize
  omega

namespace NNArray

variable {ROWS COLS : Nat}

theorem foldl_add_val (l : List (TrackedNumber ℝ)) (acc : ℝ) :
    l.foldl (fun first item => first + item.getVal) acc =
      acc + (l.map TrackedNumber.getVal).sum := by
  induction l generalizing acc with
  | nil => simp
  | cons x xs ih =>
    rw [List.foldl_cons, ih]
    simp [add_assoc]

theorem foldl_diff (l : List (TrackedNumber ℝ)) (m : ℝ) (acc : ℝ × ℝ) :
    l.foldl (fun (st : ℝ × ℝ) item =>
      (st.1 + (item.getVal - m), st.2 + (item.getVal - m) * (item.getVal - m))) acc =
      (acc.1 + (l.map (fun e => e.getVal - m)).sum,
        acc.2 + (l.map (fun e => (e.getVal - m) ^ 2)).sum) := by
  induction l generalizing acc with
  | nil => simp
  | cons x xs ih =>
    rw [List.foldl_cons, ih]
    simp [add_assoc, sq]

theorem sum_sub_const (l : List (TrackedNumber ℝ)) (m : ℝ) :
    (l.map (fun e => e.getVal - m)).sum =
      (l.map TrackedNumber.getVal).sum - l.length * m := by
  induction l with
  | nil => simp
  | cons x xs ih =>
    simp only [List.map_cons, List.sum_cons, List.length_cons, ih]
    push_cast
    ring

theorem meanStdMean_eq (t : NNArray ℝ ROWS COLS) :
    t.meanStdMean = (t.d_store.map TrackedNumber.getVal).sum / t.d_store.length := by
  unfold meanStdMean
  rw [foldl_add_val]
  simp

/-- In exact arithmetic the deviations from the mean sum to zero, so the corrected
two-pass expression of `getMeanStd` is the sum of squared deviations over `n - 1`. -/
theorem meanStdRadicand_eq (t : NNArray ℝ ROWS COLS) (h1 : 1 ≤ t.d_store.length)
    (hsize : t.d_store.length < 2 ^ 64) :
    t.meanStdRadicand =
      (t.d_store.map (fun e => (e.getVal - t.meanStdMean) ^ 2)).sum /
        ((t.d_store.length : ℝ) - 1) := by
  have hn : (t.d_store.length : ℝ) ≠ 0 := by
    have : 0 < t.d_store.length := h1
    exact_mod_cast this.ne'
  have hsums : t.meanStdSums =
      ((t.d_store.map (fun e => e.getVal - t.meanStdMean)).sum,
        (t.d_store.map (fun e => (e.getVal - t.meanStdMean) ^ 2)).sum) := by
    unfold meanStdSums
    rw [foldl_diff]
    simp
  have hzero : (t.d_store.map (fun e => e.getVal - t.meanStdMean)).sum = 0 := by
    rw [sum_sub_const, meanStdMean_eq]
    field_simp
  unfold meanStdRadicand
  rw [hsums, subSize_one h1 hsize]
  simp only [hzero, mul_zero, zero_div, sub_zero]
  rw [Nat.cast_sub h1, Nat.cast_one]

/-- C15: for a tensor of `n ≥ 2` real values `x`, `getMeanStd()` returns the pair of
the arithmetic mean `m = (∑ x) / n` and the sample standard deviation
`sqrt ((∑ (x - m)^2) / (n - 1))`: the corrected two-pass expression under the
square root equals the sample variance. -/
theorem getMeanStd_sample (t : NNArray ℝ ROWS COLS) (hn : 2 ≤ t.d_store.length)
    (hsize : t.d_store.length < 2 ^ 64) :
    t.getMeanStd Real.sqrt =
      ((t.d_store.map TrackedNumber.getVal).sum / t.d_store.length,
        Real.sqrt ((t.d_store.map (fun e => (e.getVal -
          (t.d_store.map TrackedNumber.getVal).sum / t.d_store.length) ^ 2)).sum /
            ((t.d_store.length : ℝ) - 1))) ∧
    t.meanStdRadicand =
      (t.d_store.map (fun e => (e.getVal -
        (t.d_store.map TrackedNumber.getVal).sum / t.d_store.length) ^ 2)).sum /
          ((t.d_store.length : ℝ) - 1) := by
  have h := meanStdRadicand_eq t (by omega) hsize
  rw [meanStdMean_eq] at h
  refine ⟨?_, h⟩
  unfold getMeanStd
  rw [h, meanStdMean_eq]

/-- C15 at the 1×2 tensor of the real values `1` and `3`. -/
theorem getMeanStd_sample_witness :
    2 ≤ mR.d_store.length ∧ mR.d_store.length < 2 ^ 64 ∧
    (mR.getMeanStd Real.sqrt =
      ((mR.d_store.map TrackedNumber.getVal).sum / mR.d_store.length,
        Real.sqrt ((mR.d_store.map (fun e => (e.getVal -
          (mR.d_store.map TrackedNumber.getVal).sum / mR.d_store.length) ^ 2)).sum /
            ((mR.d_store.length : ℝ) - 1))) ∧
    mR.meanStdRadicand =
      (mR.d_store.map (fun e => (e.getVal -
        (mR.d_store.map TrackedNumber.getVal).sum / mR.d_store.length) ^ 2)).sum /
          ((mR.d_store.length : ℝ) - 1)) :=
  have h1 : 2 ≤ mR.d_store.length := by decide
  have h2 : mR.d_store.length < 2 ^ 64 := by decide
  ⟨h1, h2, getMeanStd_sample mR h1 h2⟩

/-- C20: for a tensor of real values whose size `n` is a `size_t`, `getMeanStd()`
with `n ≥ 2` divides by the nonzero `n` and `n - 1` and takes the square root of a
non-negative number, the radicand `(∑ d^2 - (∑ d)^2 / n) / (n - 1)`; with `n = 1`
the divisor `n - 1` is zero. -/
theorem getMeanStd_domain (t : NNArray ℝ ROWS COLS) (hsize : t.d_store.length < 2 ^ 64) :
    (2 ≤ t.d_store.length →
      (t.d_store.length : ℝ) ≠ 0 ∧ ((subSize t.d_store.length 1 : Nat) : ℝ) ≠ 0 ∧
      0 ≤ t.meanStdRadicand) ∧
    (t.d_store.length = 1 → ((subSize t.d_store.length 1 : Nat) : ℝ) = 0) := by
  constructor
  · intro hn
    refine ⟨?_, ?_, ?_⟩
    · have : 0 < t.d_store.length := by omega
      exact_mod_cast this.ne'
    · rw [subSize_one (by omega) hsize]
      have : 0 < t.d_store.length - 1 := by omega
      exact_mod_cast this.ne'
    · rw [meanStdRadicand_eq t (by omega) hsize]
      apply div_nonneg
      · apply List.sum_nonneg
        intro x hx
        simp only [List.mem_map] at hx
        obtain ⟨e, _, rfl⟩ := hx
        exact sq_nonneg _
      · have : (2 : ℝ) ≤ t.d_store.length := by exact_mod_cast hn
        linarith
  · intro h1
    rw [h1]
    norm_num [subSize]

/-- C20 at the 1×2 tensor of the real values `1` and `3`. -/
theorem getMeanStd_domain_witness :
    mR.d_store.length < 2 ^ 64 ∧
    ((2 ≤ mR.d_store.length →
      (mR.d_store.length : ℝ) ≠ 0 ∧ ((subSize mR.d_store.length 1 : Nat) : ℝ) ≠ 0 ∧
      0 ≤ mR.meanStdRadicand) ∧
    (mR.d_store.length = 1 → ((subSize mR.d_store.length 1 : Nat) : ℝ) = 0)) :=
  have h2 : mR.d_store.length < 2 ^ 64 := by decide
  ⟨h2, getMeanStd_domain mR h2⟩

end NNArray

namespace TensorLayer

variable {α : Type}

/-- The tensor `load` leaves where `t2` was when it reads the values `vals`. -/
theorem tensor_load_append [Zero α] (t2 : Tensor α) (vals rest : List α)
    (h : vals.length = t2.d_store.length) :
    t2.load (vals ++ rest) =
      some ({ t2 with d_store := vals.map TrackedNumber.ofVal }, rest) := by
  unfold Tensor.load
  rw [if_pos (by simp [h]), ← h]
  simp

theorem save_stream (ps : List Nat) (L : TensorLayer α) (out : List α)
    (hvalid : ∀ p, p ∈ ps → p < L.members.length) :
    ps.foldlM (fun (out : List α) p => do
      let t ← L.members[p]?
      pure (t.save out)) out = some (out ++ (ps.map L.valuesOf).flatten) := by
  induction ps generalizing out with
  | nil => simp
  | cons p ps ih =>
    have hp : p < L.members.length := hvalid p (by simp)
    rw [List.foldlM_cons]
    simp only [Option.bind_eq_bind, Option.pure_def, List.getElem?_eq_getElem hp,
      Option.some_bind]
    have := ih (L.members[p].save out) (fun q hq => hvalid q (by simp [hq]))
    simp only [Option.bind_eq_bind, Option.pure_def] at this
    rw [this]
    simp [Tensor.save, valuesOf, List.getElem?_eq_getElem hp]

theorem load_stream [Zero α] (L : TensorLayer α) (ps : List Nat) (L2 : TensorLayer α)
    (rest : List α) (hvalid : ∀ p, p ∈ ps → p < L.members.length)
    (hlen : L2.members.length = L.members.length)
    (hshape : ∀ (q : Nat) (t t2 : Tensor α), L.members[q]? = some t → L2.members[q]? = some t2 →
      t2.d_store.length = t.d_store.length) :
    ∃ L2' : TensorLayer α,
      ps.foldl loadStep (L2, some ((ps.map L.valuesOf).flatten ++ rest)) =
        (L2', some rest) ∧
      L2'.d_params = L2.d_params ∧ L2'.members.length = L2.members.length ∧
      ∀ (q : Nat) (t2 : Tensor α), L2.members[q]? = some t2 →
        L2'.members[q]? = some (if q ∈ ps then
          { t2 with d_store := (L.valuesOf q).map TrackedNumber.ofVal } else t2) := by
  induction ps generalizing L2 with
  | nil => exact ⟨L2, rfl, rfl, rfl, by simp⟩
  | cons p ps ih =>
    have hp : p < L.members.length := hvalid p (by simp)
    have hp2 : p < L2.members.length := by omega
    have hvals : L.valuesOf p = L.members[p].d_store.map TrackedNumber.getVal := by
      simp [valuesOf, List.getElem?_eq_getElem hp]
    have hvl : (L.valuesOf p).length = L2.members[p].d_store.length := by
      rw [hvals, List.length_map]
      exact (hshape p _ _ (List.getElem?_eq_getElem hp) (List.getElem?_eq_getElem hp2)).symm
    have hstep : loadStep (L2, some (((p :: ps).map L.valuesOf).flatten ++ rest)) p =
        ({ L2 with
            members := L2.members.set p
              ({ L2.members[p] with d_store := (L.valuesOf p).map TrackedNumber.ofVal }) },
          some ((ps.map L.valuesOf).flatten ++ rest)) := by
      unfold loadStep
      simp only [List.map_cons, List.flatten_cons, List.append_assoc,
        List.getElem?_eq_getElem hp2]
      rw [tensor_load_append _ _ _ hvl]
    obtain ⟨L2', hL2', hd, hl, hm⟩ := ih
      { L2 with
        members := L2.members.set p
          ({ L2.members[p] with d_store := (L.valuesOf p).map TrackedNumber.ofVal }) }
      (fun q hq => hvalid q (by simp [hq])) (by simpa using hlen)
      (by
        intro q t t2 hq hq2
        by_cases hqp : q = p
        · subst hqp
          simp only [List.getElem?_set, hp2, if_true, Option.some.injEq] at hq2
          subst hq2
          rw [List.getElem?_eq_getElem hp] at hq
          have := Option.some.inj hq
          subst this
          simp [hvals]
        · simp only at hq2
          rw [List.getElem?_set_ne (Ne.symm hqp)] at hq2
          exact hshape q t t2 hq hq2)
    refine ⟨L2', ?_, hd, by simpa using hl, ?_⟩
    · rw [List.foldl_cons, hstep]
      exact hL2'
    · intro q t2 hq
      by_cases hqp : q = p
      · subst hqp
        have ht : L2.members[q] = t2 := by
          rw [List.getElem?_eq_getElem hp2] at hq
          exact Option.some.inj hq
        have := hm q { t2 with d_store := (L.valuesOf q).map TrackedNumber.ofVal }
          (by simp [List.getElem?_set, hp2, ht])
        rw [this]
        by_cases hmem : q ∈ ps
        · simp [hmem]
        · simp [hmem]
      · have := hm q t2 (by
          simp only
          rw [List.getElem?_set_ne (Ne.symm hqp)]
          exact hq)
        rw [this]
        simp [hqp]

/-- C11: `save` writes the registered tensors in registration order, and `load`
reads them in the same order: for a layer `L` and a freshly constructed layer `L2`
with the same registered pointers and tensors of the same element counts, `save` on
`L` yields the values of the registered tensors one after the other, and `load` of
that stream into `L2` consumes it entirely and leaves every registered tensor of
`L2` with the values of the corresponding tensor of `L`. -/
theorem save_load_roundtrip [Zero α] (L L2 : TensorLayer α)
    (hvalid : ∀ p, p ∈ L.d_params → p < L.members.length)
    (hparams : L2.d_params = L.d_params)
    (hlen : L2.members.length = L.members.length)
    (hshape : ∀ (q : Nat) (t t2 : Tensor α), L.members[q]? = some t → L2.members[q]? = some t2 →
      t2.d_store.length = t.d_store.length) :
    L.save [] = some ((L.d_params.map L.valuesOf).flatten) ∧
    ∃ L2' : TensorLayer α,
      L2.load ((L.d_params.map L.valuesOf).flatten) = (L2', some []) ∧
      L2'.d_params = L2.d_params ∧
      ∀ (p : Nat) (t : Tensor α), p ∈ L.d_params → L.members[p]? = some t →
        ∃ t2, L2'.members[p]? = some t2 ∧
          t2.d_store.map TrackedNumber.getVal = t.d_store.map TrackedNumber.getVal := by
  constructor
  · have := save_stream L.d_params L [] hvalid
    simpa [save] using this
  · obtain ⟨L2', hL2', hd, hl, hm⟩ := load_stream L L.d_params L2 [] hvalid hlen hshape
    refine ⟨L2', ?_, hd, ?_⟩
    · unfold load
      rw [hparams]
      simpa using hL2'
    · intro p t hp ht
      have hpl : p < L.members.length := hvalid p hp
      have hp2 : p < L2.members.length := by omega
      refine ⟨_, by rw [hm p _ (List.getElem?_eq_getElem hp2), if_pos hp], ?_⟩
      simp [valuesOf, ht, Function.comp_def]

/-- C11 at the layer `layerA`, saved and loaded into the zero layer `layerZ`. -/
theorem save_load_roundtrip_witness :
    (∀ p, p ∈ layerA.d_params → p < layerA.members.length) ∧
    layerZ.d_params = layerA.d_params ∧
    layerZ.members.length = layerA.members.length ∧
    (∀ (q : Nat) (t t2 : Tensor ℤ), layerA.members[q]? = some t → layerZ.members[q]? = some t2 →
      t2.d_store.length = t.d_store.length) ∧
    (layerA.save [] = some ((layerA.d_params.map layerA.valuesOf).flatten) ∧
    ∃ L2' : TensorLayer ℤ,
      layerZ.load ((layerA.d_params.map layerA.valuesOf).flatten) = (L2', some []) ∧
      L2'.d_params = layerZ.d_params ∧
      ∀ (p : Nat) (t : Tensor ℤ), p ∈ layerA.d_params → layerA.members[p]? = some t →
        ∃ t2, L2'.members[p]? = some t2 ∧
          t2.d_store.map TrackedNumber.getVal = t.d_store.map TrackedNumber.getVal) :=
  have h1 : ∀ p, p ∈ layerA.d_params → p < layerA.members.length := by decide
  have h4 : ∀ (q : Nat) (t t2 : Tensor ℤ), layerA.members[q]? = some t → layerZ.members[q]? = some t2 →
      t2.d_store.length = t.d_store.length := by
    intro q t t2 hq hq2
    match q, hq, hq2 with
    | 0, hq, hq2 =>
      simp only [layerA, layerZ, List.getElem?_cons_zero, Option.some.injEq] at hq hq2
      subst hq; subst hq2; rfl
    | 1, hq, hq2 =>
      simp only [layerA, layerZ, List.getElem?_cons_succ, List.getElem?_cons_zero,
        Option.some.injEq] at hq hq2
      subst hq; subst hq2; rfl
    | n + 2, hq, _ => simp [layerA] at hq
  ⟨h1, rfl, rfl, h4, save_load_roundtrip layerA layerZ h1 rfl rfl h4⟩

end TensorLayer

namespace TensorLayer

variable {α : Type}

theorem loadStep_failed [Zero α] (L : TensorLayer α) (ps : List Nat) :
    ps.foldl loadStep (L, none) = (L, none) := by
  induction ps with
  | nil => rfl
  | cons p ps ih => rw [List.foldl_cons]; exact ih

theorem loadStep_fail_state [Zero α] (L : TensorLayer α) (inp : List α) (p : Nat)
    (h : (loadStep (L, some inp) p).2 = none) : loadStep (L, some inp) p = (L, none) := by
  unfold loadStep at h ⊢
  simp only at h ⊢
  cases hm : L.members[p]? with
  | none => rfl
  | some t =>
    rw [hm] at h
    simp only at h ⊢
    cases hl : t.load inp with
    | none => rfl
    | some r =>
      rw [hl] at h
      simp at h

theorem loadStep_frame [Zero α] (st : TensorLayer α × Option (List α)) (p q : Nat)
    (hq : q ≠ p) : (loadStep st p).1.members[q]? = st.1.members[q]? := by
  unfold loadStep
  cases h2 : st.2 with
  | none => rfl
  | some inp =>
    simp only
    cases hm : st.1.members[p]? with
    | none => rfl
    | some t =>
      simp only
      cases hl : t.load inp with
      | none => rfl
      | some r =>
        simp only
        rw [List.getElem?_set_ne (Ne.symm hq)]

theorem load_frame [Zero α] (ps : List Nat) (st : TensorLayer α × Option (List α)) (q : Nat)
    (hq : q ∉ ps) : (ps.foldl loadStep st).1.members[q]? = st.1.members[q]? := by
  induction ps generalizing st with
  | nil => rfl
  | cons p ps ih =>
    rw [List.foldl_cons, ih (loadStep st p) (fun h => hq (by simp [h])),
      loadStep_frame st p q (fun h => hq (by simp [h]))]

/-- A failed read abandons the call: the layer is left as the reads before it made
it. -/
theorem load_abandon [Zero α] (L : TensorLayer α) (inp : List α)
    (pre post : List Nat) (p : Nat) (hps : L.d_params = pre ++ p :: post)
    (L1 : TensorLayer α) (inp1 : List α)
    (hpre : pre.foldl loadStep (L, some inp) = (L1, some inp1))
    (hfail : (loadStep (L1, some inp1) p).2 = none) :
    L.load inp = (L1, none) := by
  unfold load
  rw [hps, List.foldl_append, hpre, List.foldl_cons, loadStep_fail_state L1 inp1 p hfail,
    loadStep_failed]

/-- The reads of the registered tensors `ps` from a stream that holds `vals q` for
each of them in turn: every one succeeds and leaves its tensor with these values. -/
theorem load_prefix [Zero α] (vals : Nat → List α) (ps : List Nat) (L : TensorLayer α)
    (rest : List α)
    (hv : ∀ q, q ∈ ps → ∃ t, L.members[q]? = some t ∧ (vals q).length = t.d_store.length) :
    ∃ L1 : TensorLayer α,
      ps.foldl loadStep (L, some ((ps.map vals).flatten ++ rest)) = (L1, some rest) ∧
      L1.d_params = L.d_params ∧
      ∀ (q : Nat) (t : Tensor α), L.members[q]? = some t →
        L1.members[q]? = some (if q ∈ ps then
          { t with d_store := (vals q).map TrackedNumber.ofVal } else t) := by
  induction ps generalizing L with
  | nil => exact ⟨L, rfl, rfl, by simp⟩
  | cons p ps ih =>
    obtain ⟨tp, htp, hlp⟩ := hv p (by simp)
    have hp : p < L.members.length := by
      by_contra hnot
      rw [List.getElem?_eq_none (by omega)] at htp
      exact Option.noConfusion htp
    have hstep : loadStep (L, some (((p :: ps).map vals).flatten ++ rest)) p =
        ({ L with
            members := L.members.set p
              ({ tp with d_store := (vals p).map TrackedNumber.ofVal }) },
          some ((ps.map vals).flatten ++ rest)) := by
      unfold loadStep
      simp only [List.map_cons, List.flatten_cons, List.append_assoc, htp]
      rw [tensor_load_append _ _ _ hlp]
    obtain ⟨L1, hL1, hd, hm⟩ := ih
      { L with
        members := L.members.set p
          ({ tp with d_store := (vals p).map TrackedNumber.ofVal }) }
      (by
        intro q hq
        by_cases hqp : q = p
        · subst hqp
          exact ⟨{ tp with d_store := (vals q).map TrackedNumber.ofVal },
            by simp [List.getElem?_set, hp], by simp⟩
        · obtain ⟨t, ht, hl⟩ := hv q (by simp [hq])
          refine ⟨t, ?_, hl⟩
          simp only
          rw [List.getElem?_set_ne (Ne.symm hqp)]
          exact ht)
    refine ⟨L1, ?_, hd, ?_⟩
    · rw [List.foldl_cons, hstep]
      exact hL1
    · intro q t hq
      by_cases hqp : q = p
      · subst hqp
        have ht : tp = t := by
          rw [htp] at hq
          exact Option.some.inj hq
        subst ht
        have := hm q { tp with d_store := (vals q).map TrackedNumber.ofVal }
          (by simp [List.getElem?_set, hp])
        rw [this]
        by_cases hmem : q ∈ ps
        · simp [hmem]
        · simp [hmem]
      · have := hm q t (by
          simp only
          rw [List.getElem?_set_ne (Ne.symm hqp)]
          exact hq)
        rw [this]
        simp [hqp]

/-- C13: when the stream holds the values `vals q` for each of the registered
tensors `pre` and then fewer values than the next registered tensor `p` has
elements, `load` fails at `p` and is abandoned there without any rollback: every
tensor of `pre` is left with the values `vals q` read from the stream, and only the
tensors that are not among `pre` are as they were before the call. -/
theorem load_failure_state [Zero α] (L : TensorLayer α) (pre post : List Nat) (p : Nat)
    (vals : Nat → List α) (rest : List α)
    (hps : L.d_params = pre ++ p :: post)
    (hpre : ∀ q, q ∈ pre →
      ∃ t, L.members[q]? = some t ∧ (vals q).length = t.d_store.length)
    (hfail : ∀ t, L.members[p]? = some t → rest.length < t.d_store.length) :
    ∃ L1 : TensorLayer α,
      L.load ((pre.map vals).flatten ++ rest) = (L1, none) ∧
      L1.d_params = L.d_params ∧
      (∀ (q : Nat) (t : Tensor α), q ∈ pre → L.members[q]? = some t →
        ∃ t1, L1.members[q]? = some t1 ∧ t1.rows = t.rows ∧ t1.cols = t.cols ∧
          t1.d_store.map TrackedNumber.getVal = vals q) ∧
      (∀ q, q ∉ pre → L1.members[q]? = L.members[q]?) := by
  obtain ⟨L1, hL1, hd, hm⟩ := load_prefix vals pre L rest hpre
  have hlen : L1.members.length = L.members.length := by
    by_contra hne
    rcases Nat.lt_or_gt_of_ne hne with h | h
    · have h1 := hm L1.members.length L.members[L1.members.length]
        (List.getElem?_eq_getElem h)
      rw [List.getElem?_eq_none (le_refl _)] at h1
      exact Option.noConfusion h1
    · have h2 : L1.members[L.members.length]? = L.members[L.members.length]? := by
        by_cases hmem : L.members.length ∈ pre
        · obtain ⟨t, ht, _⟩ := hpre _ hmem
          rw [List.getElem?_eq_none (le_refl _)] at ht
          exact Option.noConfusion ht
        · exact (load_frame pre (L, some ((pre.map vals).flatten ++ rest)) _ hmem ▸
            (by rw [hL1]))
      rw [List.getElem?_eq_getElem h, List.getElem?_eq_none (le_refl _)] at h2
      exact Option.noConfusion h2
  have hfail1 : (loadStep (L1, some rest) p).2 = none := by
    unfold loadStep
    simp only
    cases hp1 : L1.members[p]? with
    | none => rfl
    | some t1 =>
      simp only
      have hp : p < L.members.length := by
        rw [← hlen]
        by_contra hnot
        rw [List.getElem?_eq_none (by omega)] at hp1
        exact Option.noConfusion hp1
      have h1 := hm p L.members[p] (List.getElem?_eq_getElem hp)
      rw [hp1] at h1
      have hl : t1.d_store.length = L.members[p].d_store.length := by
        rw [Option.some.inj h1]
        by_cases hmem : p ∈ pre
        · obtain ⟨t, ht, hlt⟩ := hpre p hmem
          rw [List.getElem?_eq_getElem hp] at ht
          rw [if_pos hmem, Option.some.inj ht]
          simp [hlt]
        · rw [if_neg hmem]
      have hf := hfail L.members[p] (List.getElem?_eq_getElem hp)
      have hnone : t1.load rest = none := by
        unfold Tensor.load
        rw [if_neg (by omega)]
      rw [hnone]
  refine ⟨L1, load_abandon L _ pre post p hps L1 rest hL1 hfail1, hd, ?_, ?_⟩
  · intro q t hq ht
    refine ⟨{ t with d_store := (vals q).map TrackedNumber.ofVal },
      by rw [hm q t ht, if_pos hq], rfl, rfl, ?_⟩
    simp [Function.comp_def]
  · intro q hq
    have := load_frame pre (L, some ((pre.map vals).flatten ++ rest)) q hq
    rw [hL1] at this
    exact this

/-- C13 at the layer `layerA` and the stream `8 9`: the first registered tensor
reads both values, the read of the second fails, and the first tensor is left with
`8 9`. -/
theorem load_failure_state_witness :
    layerA.d_params = [0] ++ 1 :: [] ∧
    (∀ q, q ∈ [0] →
      ∃ t, layerA.members[q]? = some t ∧
        ((fun _ => [8, 9]) q : List ℤ).length = t.d_store.length) ∧
    (∀ t, layerA.members[1]? = some t → ([] : List ℤ).length < t.d_store.length) ∧
    ∃ L1 : TensorLayer ℤ,
      layerA.load (([0].map (fun _ => [8, 9])).flatten ++ []) = (L1, none) ∧
      L1.d_params = layerA.d_params ∧
      (∀ (q : Nat) (t : Tensor ℤ), q ∈ [0] → layerA.members[q]? = some t →
        ∃ t1, L1.members[q]? = some t1 ∧ t1.rows = t.rows ∧ t1.cols = t.cols ∧
          t1.d_store.map TrackedNumber.getVal = (fun _ => [8, 9]) q) ∧
      (∀ q, q ∉ [0] → L1.members[q]? = layerA.members[q]?) :=
  have h1 : layerA.d_params = [0] ++ 1 :: [] := by decide
  have h2 : ∀ q, q ∈ [0] →
      ∃ t, layerA.members[q]? = some t ∧
        ((fun _ => [8, 9]) q : List ℤ).length = t.d_store.length := by
    intro q hq
    have hq0 : q = 0 := by simpa using hq
    subst hq0
    exact ⟨_, rfl, rfl⟩
  have h3 : ∀ t, layerA.members[1]? = some t →
      ([] : List ℤ).length < t.d_store.length := by
    intro t ht
    have : t = ⟨1, 1, [TrackedNumber.leaf 1 10]⟩ := by
      simp only [layerA, List.getElem?_cons_succ, List.getElem?_cons_zero,
        Option.some.injEq] at ht
      exact ht.symm
    subst this
    decide
  ⟨h1, h2, h3, load_failure_state layerA [0] [] 1 (fun _ => [8, 9]) [] h1 h2 h3⟩

/-- C13, the claim as stated fails: `load` on `layerA` from a stream of two values
fails at the second registered tensor, and the first registered tensor, which held
`5 7` before the call, holds `8 9` after it. -/
theorem load_partial :
    (layerA.load [8, 9]).2 = none ∧
    layerA.members[0]?.map (fun t => t.d_store.map TrackedNumber.getVal) = some [5, 7] ∧
    (layerA.load [8, 9]).1.members[0]?.map (fun t => t.d_store.map TrackedNumber.getVal) =
      some [8, 9] := by
  refine ⟨by decide, by decide, by decide⟩

end TensorLayer

theorem tmp_name_ne (fname : String) : fname ++ ".tmp" ≠ fname := by
  intro h
  have := congrArg String.length h
  simp [String.length_append] at this
  have h4 : (".tmp" : String).length = 4 := by decide
  omega

/-- Along the steps of `saveModelState(ms, fname)` the file `fname` keeps its
previous content while `fname.tmp` is opened, written, flushed and closed, and holds
the new content after the `rename`; between the two, after `unlink(fname)`, there is
no file `fname` at all. -/
theorem saveModelState_unlink_gap {α : Type} (save : List α → List α) (fname : String)
    (fs : FileSystem α) :
    (saveModelStateTrace save fname fs).map (fun s => s fname) =
      [fs fname, fs fname, fs fname, fs fname, none, some (save [])] := by
  have hne := tmp_name_ne fname
  have hne' : fname ≠ fname ++ ".tmp" := fun h => hne h.symm
  simp [saveModelStateTrace, FileSystem.put, hne, hne']

/-- C12: with a file `model` that holds the previous model `9`, the steps of
`saveModelState(ms, "model")` writing the new model `1 2` leave `model` with the
previous model after the open, the write, the flush and the close, with no file
`model` at all after `unlink`, and with the new model after `rename`. -/
theorem saveModelState_model_missing :
    (saveModelStateTrace (fun out => out ++ [1, 2]) "model"
      (fun n => if n = "model" then some [9] else none) : List (FileSystem ℤ)).map
        (fun s => s "model") =
      [some [9], some [9], some [9], some [9], none, some [1, 2]] := by
  rw [saveModelState_unlink_gap]
  simp

namespace NNArray

variable {α : Type} {ROWS COLS : Nat}

theorem add_flat [Zero α] [Add α] (t w : NNArray α ROWS COLS) (x y : Nat → α)
    (hsz : ROWS * COLS < 2 ^ 32) (htl : t.d_store.length = ROWS * COLS)
    (ht : ∀ q, q < ROWS * COLS → t.d_store[q]?.map TrackedNumber.getVal = some (x q))
    (hw : ∀ q, q < ROWS * COLS → w.d_store[q]?.map TrackedNumber.getVal = some (y q)) :
    ∃ ret, t.add w = some ret ∧ ret.d_store.length = ROWS * COLS ∧
      ∀ q, q < ROWS * COLS →
        ret.d_store[q]?.map TrackedNumber.getVal = some (x q + y q) := by
  unfold add
  rw [htl]
  refine forLoop_post
    (fun pos (ret : NNArray α ROWS COLS) => ret.d_store.length = ROWS * COLS ∧
      ∀ q, q < ROWS * COLS → q < pos →
        ret.d_store[q]?.map TrackedNumber.getVal = some (x q + y q))
    _ _ _ _ ⟨create_length hsz, by simp⟩ ?_ ?_
  · intro pos ret hpos ⟨hl, hq⟩
    have h1 := ht pos hpos
    have h2 := hw pos hpos
    simp only [Option.map_eq_some'] at h1 h2
    obtain ⟨a, ha, hav⟩ := h1
    obtain ⟨b, hb, hbv⟩ := h2
    simp only [ha, hb, Option.bind_eq_bind, Option.some_bind, hl, hpos, if_true, Option.pure_def]
    refine ⟨_, rfl, by simp [hl], ?_⟩
    intro q hqn hqp
    rcases Nat.lt_succ_iff_lt_or_eq.mp hqp with h | h
    · simp only
      rw [List.getElem?_set_ne (by omega)]
      exact hq q hqn h
    · subst h
      simp [List.getElem?_set, hl, hqn, hav, hbv]
  · intro ret ⟨hl, hq⟩
    exact ⟨hl, fun q hqn => hq q hqn hqn⟩

theorem add_holds [Zero α] [Add α] (t w : NNArray α ROWS COLS) (a b : Nat → Nat → α)
    (ht : t.Holds a) (hw : w.Holds b) :
    ∃ ret, t.add w = some ret ∧ ret.Holds (fun i j => a i j + b i j) := by
  obtain ⟨ret, hret, hl, hv⟩ := add_flat t w (fun q => a (q / COLS) (q % COLS))
    (fun q => b (q / COLS) (q % COLS)) ht.2.1 ht.1 (fun q hq => ht.flat hq)
    (fun q hq => hw.flat hq)
  refine ⟨ret, hret, holds_congr (holds_of_flat ret _ hl ht.2.1 hv) ?_⟩
  intro i hi j hj
  simp only [idx_div hj, idx_mod hj]

end NNArray

theorem tensor_add_holds {α : Type} [Zero α] [Add α] (p c : Tensor α) (R C : Nat)
    (a b : Nat → Nat → α) (hp : p.Holds R C a) (hc : c.Holds R C b) :
    ∃ out, p.add c = some out ∧ out.Holds R C (fun i j => a i j + b i j) := by
  obtain ⟨pr, pc, ps⟩ := p
  obtain ⟨cr, cc, cs⟩ := c
  obtain ⟨h1, h2, h3⟩ := hp
  obtain ⟨h4, h5, h6⟩ := hc
  simp only at h1 h2 h3 h4 h5 h6
  subst h1 h2 h4 h5
  obtain ⟨ret, hret, hh⟩ := NNArray.add_holds _ _ a b h3 h6
  refine ⟨⟨_, _, ret.d_store⟩, ?_, rfl, rfl, hh⟩
  unfold Tensor.add
  simp only [and_self, if_true]
  rw [hret]
  rfl

theorem tensor_matMul_holds {α : Type} [Semiring α] (A B : Tensor α) (R K N : Nat)
    (a b : Nat → Nat → α) (hA : A.Holds R K a) (hB : B.Holds K N b)
    (hRN : R * N < 2 ^ 32) :
    ∃ out, A.matMul B = some out ∧
      out.Holds R N (fun i j => ∑ k in Finset.range K, a i k * b k j) := by
  obtain ⟨ar, ac, as⟩ := A
  obtain ⟨br, bc, bs⟩ := B
  obtain ⟨h1, h2, h3⟩ := hA
  obtain ⟨h4, h5, h6⟩ := hB
  simp only at h1 h2 h3 h4 h5 h6
  subst h1 h2 h5
  subst h4
  obtain ⟨ret, hret, hh⟩ := NNArray.matMul_spec _ _ a b h3 h6 hRN
  refine ⟨⟨_, _, ret.d_store⟩, ?_, rfl, rfl, hh⟩
  unfold Tensor.matMul
  simp only [if_true]
  rw [hret]
  rfl

/-- C17: for a `Linear(IN, OUT)` layer whose weights hold the `OUT×IN` values `w` and
whose bias holds the `OUT×1` values `b`, and an `IN×1` input holding `x`,
`forward` returns an `OUT×1` tensor whose element `(i, 0)` has the value
`(∑ k < IN, w i k * x k 0) + b i 0`, and the layer, weights and bias included, is
as it was. -/
theorem Linear_forward_holds {α : Type} [Semiring α] (IN OUT : Nat) (L : TensorLayer α)
    (W B inp : Tensor α) (w b x : Nat → Nat → α)
    (hW : L.members[0]? = some W) (hB : L.members[1]? = some B)
    (hw : W.Holds OUT IN w) (hb : B.Holds OUT 1 b) (hx : inp.Holds IN 1 x) :
    ∃ out, Linear.forward L inp = some (L, out) ∧
      out.Holds OUT 1 (fun i j => (∑ k in Finset.range IN, w i k * x k j) + b i j) ∧
      (∀ i, i < OUT → ∃ e, (⟨out.d_store⟩ : NNArray α OUT 1).elemAt (toInt i) (toInt 0) = some e ∧
        e.getVal = (∑ k in Finset.range IN, w i k * x k 0) + b i 0) := by
  have hsz : OUT * 1 < 2 ^ 32 := hb.2.2.2.1
  obtain ⟨prod, hprod, hph⟩ := tensor_matMul_holds W inp OUT IN 1 w x hw hx hsz
  obtain ⟨out, hout, hoh⟩ := tensor_add_holds prod B OUT 1 _ b hph hb
  refine ⟨out, ?_, hoh, ?_⟩
  · unfold Linear.forward
    simp only [hW, hB, hprod, hout, Option.bind_eq_bind, Option.some_bind, Option.pure_def]
  · intro i hi
    have := hoh.2.2.2.2 i hi 0 (by decide)
    simpa using this

/-- C17 at a layer with the 2×2 weights `1 2 / 3 4`, the bias `10 20` and the input
`1 1`. -/
theorem Linear_forward_holds_witness :
    linL.members[0]? = some ⟨2, 2, mA.d_store⟩ ∧
    linL.members[1]? = some ⟨2, 1, [TrackedNumber.leaf 10 0, TrackedNumber.leaf 20 0]⟩ ∧
    (⟨2, 2, mA.d_store⟩ : Tensor ℤ).Holds 2 2 fA ∧
    (⟨2, 1, [TrackedNumber.leaf 10 0, TrackedNumber.leaf 20 0]⟩ : Tensor ℤ).Holds 2 1
      (fun i _ => 10 * (i + 1)) ∧
    (⟨2, 1, [TrackedNumber.leaf 1 0, TrackedNumber.leaf 1 0]⟩ : Tensor ℤ).Holds 2 1
      (fun _ _ => 1) ∧
    ∃ out, Linear.forward linL ⟨2, 1, [TrackedNumber.leaf 1 0, TrackedNumber.leaf 1 0]⟩ =
        some (linL, out) ∧
      out.Holds 2 1 (fun i _ => (∑ k in Finset.range 2, fA i k * 1) + 10 * (i + 1)) ∧
      (∀ i, i < 2 → ∃ e, (⟨out.d_store⟩ : NNArray ℤ 2 1).elemAt (toInt i) (toInt 0) = some e ∧
        e.getVal = (∑ k in Finset.range 2, fA i k * 1) + 10 * (i + 1)) :=
  have h3 : (⟨2, 2, mA.d_store⟩ : Tensor ℤ).Holds 2 2 fA := by
    unfold Tensor.Holds NNArray.Holds; decide
  have h4 : (⟨2, 1, [TrackedNumber.leaf 10 0, TrackedNumber.leaf 20 0]⟩ : Tensor ℤ).Holds 2 1
      (fun i _ => 10 * (i + 1)) := by
    unfold Tensor.Holds NNArray.Holds; decide
  have h5 : (⟨2, 1, [TrackedNumber.leaf 1 0, TrackedNumber.leaf 1 0]⟩ : Tensor ℤ).Holds 2 1
      (fun _ _ => 1) := by
    unfold Tensor.Holds NNArray.Holds; decide
  ⟨rfl, rfl, h3, h4, h5, Linear_forward_holds 2 2 linL _ _ _ fA _ _ rfl rfl h3 h4 h5⟩

theorem bind_pair_post {σ γ : Type} {x : Option σ} {c : γ} {P : σ → Prop}
    (h : ∃ s, x = some s ∧ P s) : ∃ r, (x.bind fun s => some (c, s)) = some (c, r) ∧ P r := by
  obtain ⟨s, hs, hP⟩ := h
  exact ⟨s, by simp [hs], hP⟩

theorem holds_cast {α : Type} {R1 C1 R2 C2 : Nat} (h1 : R1 = R2) (h2 : C1 = C2)
    (t : NNArray α R1 C1) (a : Nat → Nat → α) (h : t.Holds a) :
    (⟨t.d_store⟩ : NNArray α R2 C2).Holds a := by
  subst h1 h2
  exact h

theorem tensor_holds_congr {α : Type} {t : Tensor α} {R C : Nat} {a a' : Nat → Nat → α}
    (h : t.Holds R C a) (ha : ∀ i, i < R → ∀ j, j < C → a i j = a' i j) :
    t.Holds R C a' :=
  ⟨h.1, h.2.1, NNArray.holds_congr h.2.2 ha⟩

theorem tensor_makeConvo_holds {α : Type} [Semiring α] (t f bt : Tensor α) (R C K : Nat)
    (x w b : Nat → Nat → α) (ht : t.Holds R C x) (hf : f.Holds K K w)
    (hb : bt.Holds 1 1 b) (hK : 1 ≤ K) (hKR : K ≤ R) (hKC : K ≤ C) :
    ∃ c, t.makeConvo K f bt = some c ∧
      c.Holds (1 + R - K) (1 + C - K) (convValue K x w (b 0 0)) := by
  obtain ⟨tr, tc, ts⟩ := t
  obtain ⟨fr, fc, fs⟩ := f
  obtain ⟨br, bc, bs⟩ := bt
  obtain ⟨h1, h2, h3⟩ := ht
  obtain ⟨h4, h5, h6⟩ := hf
  obtain ⟨h7, h8, h9⟩ := hb
  simp only at h1 h2 h3 h4 h5 h6 h7 h8 h9
  subst h1 h2 h4 h7 h8
  obtain ⟨e1, e2, -, ret, hret, hh⟩ := NNArray.Convo2d_spec _ _ _ x w b h3 h6 h9 hK hKR hKC
  refine ⟨⟨_, _, ret.d_store⟩, ?_, e1, e2, ?_⟩
  · unfold Tensor.makeConvo
    simp only [h5, and_self, if_true]
    rw [hret]
    rfl
  · exact holds_cast e1 e2 ret _ hh

theorem tensor_zero_holds {α : Type} [Semiring α] (R C : Nat) (hsz : R * C < 2 ^ 32) :
    ((Tensor.create R C : Tensor α).zero).Holds R C (fun _ _ => 0) := by
  refine ⟨rfl, rfl, ?_⟩
  have hlen : ((Tensor.create R C : Tensor α).zero).d_store.length = R * C := by
    simp [Tensor.zero, Tensor.create, NNArray.zero, NNArray.constant]
  refine NNArray.holds_of_flat _ (fun _ => 0) hlen hsz ?_
  intro p hp
  simp [Tensor.zero, Tensor.create, NNArray.zero, NNArray.constant, hp]

/-- The inner loop of `Conv2d::forward`: the convolutions of the input layers with
one filter and its bias are added to `p` one after the other. -/
theorem conv_accumulate {α : Type} [Semiring α] (cv : Conv2d α) (R C K OUT ctr : Nat)
    (f bt : Tensor α) (w b : Nat → Nat → α)
    (hfa : cv.filterAt OUT ctr = some f) (hba : cv.biasAt OUT ctr = some bt)
    (hf : f.Holds K K w) (hb : bt.Holds 1 1 b) (hK : 1 ≤ K) (hKR : K ≤ R) (hKC : K ≤ C)
    (ins : List (Tensor α)) (x : Nat → Nat → Nat → α) (p : Tensor α) (acc : Nat → Nat → α)
    (hp : p.Holds (1 + R - K) (1 + C - K) acc)
    (hin : ∀ i, i < ins.length → ∃ t, ins[i]? = some t ∧ t.Holds R C (x i)) :
    ∃ p', ins.foldlM (fun (p : Tensor α) p2 => do
        let f ← cv.filterAt OUT ctr
        let b ← cv.biasAt OUT ctr
        let c ← p2.makeConvo K f b
        p.add c) p = some p' ∧
      p'.Holds (1 + R - K) (1 + C - K) (fun r c =>
        acc r c + ∑ i in Finset.range ins.length, convValue K (x i) w (b 0 0) r c) := by
  induction ins generalizing x p acc with
  | nil =>
    exact ⟨p, rfl, tensor_holds_congr hp (by intro i _ j _; simp)⟩
  | cons t0 rest ih =>
    obtain ⟨t, ht, hth⟩ := hin 0 (by simp)
    simp only [List.getElem?_cons_zero, Option.some.injEq] at ht
    subst ht
    obtain ⟨c0, hc0, hc0h⟩ := tensor_makeConvo_holds t0 f bt R C K (x 0) w b hth hf hb hK hKR hKC
    obtain ⟨p1, hp1, hp1h⟩ := tensor_add_holds p c0 _ _ _ _ hp hc0h
    obtain ⟨p', hp', hp'h⟩ := ih (fun i => x (i + 1)) p1 _ hp1h (by
      intro i hi
      have := hin (i + 1) (by simpa using hi)
      simpa using this)
    refine ⟨p', ?_, tensor_holds_congr hp'h ?_⟩
    · rw [List.foldlM_cons]
      simp only [hfa, hba, hc0, hp1, Option.bind_eq_bind, Option.some_bind]
      simp only [hfa, hba, Option.bind_eq_bind, Option.some_bind] at hp'
      exact hp'
    · intro i _ j _
      simp only [List.length_cons]
      rw [Finset.sum_range_succ' (fun i' => convValue K (x i') w (b 0 0) i j)]
      simp only [add_assoc, add_comm (convValue K (x 0) w (b 0 0) i j)]

/-- The loops of `Conv2d::forward`: result `o` is the zero tensor to which the
convolution of every input layer with filter `o` and bias `o` has been added. -/
theorem Conv2d_forward_spec {α : Type} [Semiring α] (ROWS COLS KERNEL OUTLAYERS : Nat)
    (cv : Conv2d α) (inp : List (Tensor α)) (x w b : Nat → Nat → Nat → α)
    (hsz : ROWS * COLS < 2 ^ 32)
    (hK : 1 ≤ KERNEL) (hKR : KERNEL ≤ ROWS) (hKC : KERNEL ≤ COLS)
    (hin : ∀ i, i < inp.length → ∃ t, inp[i]? = some t ∧ t.Holds ROWS COLS (x i))
    (hf : ∀ o, o < OUTLAYERS → ∃ f, cv.members[o]? = some f ∧ f.Holds KERNEL KERNEL (w o))
    (hb : ∀ o, o < OUTLAYERS →
      ∃ t, cv.members[OUTLAYERS + o]? = some t ∧ t.Holds 1 1 (b o)) :
    ∃ ret : List (Tensor α),
      Conv2d.forward ROWS COLS KERNEL OUTLAYERS cv inp = some (cv, ret) ∧
      ret.length = OUTLAYERS ∧
      ∀ o, o < OUTLAYERS → ∃ t, ret[o]? = some t ∧
        t.Holds (1 + ROWS - KERNEL) (1 + COLS - KERNEL) (fun r c =>
          ∑ i in Finset.range inp.length, convValue KERNEL (x i) (w o) (b o 0 0) r c) := by
  have hR32 : ROWS < 2 ^ 32 := NNArray.dim_lt_of_size hsz (by omega)
  have hC32 : COLS < 2 ^ 32 := by
    rw [Nat.mul_comm] at hsz
    exact NNArray.dim_lt_of_size hsz (by omega)
  have hR' := subU32_eq hK hKR hR32
  have hC' := subU32_eq hK hKC hC32
  have hout : (1 + ROWS - KERNEL) * (1 + COLS - KERNEL) < 2 ^ 32 :=
    lt_of_le_of_lt (Nat.mul_le_mul (by omega) (by omega)) hsz
  unfold Conv2d.forward
  rw [hR', hC']
  simp only [Option.bind_eq_bind, Option.pure_def]
  apply bind_pair_post
  refine forLoop_post
    (fun ctr (ret : List (Tensor α)) => ret.length = OUTLAYERS ∧
      (∀ o, o < ctr → ∃ t, ret[o]? = some t ∧
        t.Holds (1 + ROWS - KERNEL) (1 + COLS - KERNEL) (fun r c =>
          ∑ i in Finset.range inp.length, convValue KERNEL (x i) (w o) (b o 0 0) r c)) ∧
      ∀ o, ctr ≤ o → o < OUTLAYERS →
        ret[o]? = some (Tensor.create (1 + ROWS - KERNEL) (1 + COLS - KERNEL)))
    _ _ _ _ ⟨by simp, by simp, ?_⟩ ?_ ?_
  · intro o _ ho
    simp [List.getElem?_replicate, ho]
  · intro ctr ret hctr ⟨hl, hdone, hrest⟩
    obtain ⟨f, hfm, hfh⟩ := hf ctr hctr
    obtain ⟨bt, hbm, hbh⟩ := hb ctr hctr
    have hfa : cv.filterAt OUTLAYERS ctr = some f := by
      unfold Conv2d.filterAt; rw [if_pos hctr, hfm]
    have hba : cv.biasAt OUTLAYERS ctr = some bt := by
      unfold Conv2d.biasAt; rw [if_pos hctr, hbm]
    obtain ⟨p', hp', hp'h⟩ := conv_accumulate cv ROWS COLS KERNEL OUTLAYERS ctr f bt (w ctr)
      (b ctr) hfa hba hfh hbh hK hKR hKC inp x _ _ (tensor_zero_holds _ _ hout) hin
    simp only [Option.bind_eq_bind] at hp'
    dsimp only
    rw [hrest ctr (le_refl _) hctr]
    simp only [Option.some_bind]
    rw [hp']
    refine ⟨_, rfl, by simp [hl], ?_, ?_⟩
    · intro o ho
      rcases Nat.lt_succ_iff_lt_or_eq.mp ho with h | h
      · rw [List.getElem?_set_ne (by omega)]
        exact hdone o h
      · subst h
        refine ⟨p', by simp [List.getElem?_set, hl, hctr], tensor_holds_congr hp'h ?_⟩
        intro i _ j _
        simp
    · intro o ho holt
      rw [List.getElem?_set_ne (by omega)]
      exact hrest o (by omega) holt
  · intro ret ⟨hl, hdone, _⟩
    exact ⟨hl, hdone⟩

/-- C16: for `INLAYERS` input layers of shape `R×C` holding `x i`, filters holding
`w o` and biases holding `b o`, `Conv2d::forward` returns exactly `OUTLAYERS` maps,
each of shape `(1+R-K)×(1+C-K)`; map `o` is the elementwise sum over the input
layers `i` of the convolution of layer `i` with filter `o` and bias `o`, each
convolution being what the tensor convolution `makeConvo` returns. -/
theorem Conv2d_forward_maps {α : Type} [Semiring α] (ROWS COLS KERNEL OUTLAYERS : Nat)
    (cv : Conv2d α) (inp : List (Tensor α)) (x w b : Nat → Nat → Nat → α)
    (hsz : ROWS * COLS < 2 ^ 32)
    (hK : 1 ≤ KERNEL) (hKR : KERNEL ≤ ROWS) (hKC : KERNEL ≤ COLS)
    (hin : ∀ i, i < inp.length → ∃ t, inp[i]? = some t ∧ t.Holds ROWS COLS (x i))
    (hf : ∀ o, o < OUTLAYERS → ∃ f, cv.members[o]? = some f ∧ f.Holds KERNEL KERNEL (w o))
    (hb : ∀ o, o < OUTLAYERS →
      ∃ t, cv.members[OUTLAYERS + o]? = some t ∧ t.Holds 1 1 (b o)) :
    (∃ ret : List (Tensor α),
      Conv2d.forward ROWS COLS KERNEL OUTLAYERS cv inp = some (cv, ret) ∧
      ret.length = OUTLAYERS ∧
      ∀ o, o < OUTLAYERS → ∃ t, ret[o]? = some t ∧
        t.rows = 1 + ROWS - KERNEL ∧ t.cols = 1 + COLS - KERNEL ∧
        t.Holds (1 + ROWS - KERNEL) (1 + COLS - KERNEL) (fun r c =>
          ∑ i in Finset.range inp.length, convValue KERNEL (x i) (w o) (b o 0 0) r c)) ∧
    (∀ o, o < OUTLAYERS → ∀ i, i < inp.length →
      ∃ t f bt conv, inp[i]? = some t ∧ cv.filterAt OUTLAYERS o = some f ∧
        cv.biasAt OUTLAYERS o = some bt ∧ t.makeConvo KERNEL f bt = some conv ∧
        conv.Holds (1 + ROWS - KERNEL) (1 + COLS - KERNEL)
          (convValue KERNEL (x i) (w o) (b o 0 0))) := by
  constructor
  · obtain ⟨ret, hret, hl, hmaps⟩ := Conv2d_forward_spec ROWS COLS KERNEL OUTLAYERS cv inp
      x w b hsz hK hKR hKC hin hf hb
    refine ⟨ret, hret, hl, fun o ho => ?_⟩
    obtain ⟨t, ht, hth⟩ := hmaps o ho
    exact ⟨t, ht, hth.1, hth.2.1, hth⟩
  · intro o ho i hi
    obtain ⟨t, ht, hth⟩ := hin i hi
    obtain ⟨f, hfm, hfh⟩ := hf o ho
    obtain ⟨bt, hbm, hbh⟩ := hb o ho
    obtain ⟨conv, hconv, hch⟩ :=
      tensor_makeConvo_holds t f bt ROWS COLS KERNEL (x i) (w o) (b o) hth hfh hbh hK hKR hKC
    refine ⟨t, f, bt, conv, ht, ?_, ?_, hconv, hch⟩
    · unfold Conv2d.filterAt; rw [if_pos ho, hfm]
    · unfold Conv2d.biasAt; rw [if_pos ho, hbm]

/-- C16 at the layer `convL` (one 2×2 filter, bias `100`) and two 3×3 input
layers. -/
theorem Conv2d_forward_maps_witness :
    3 * 3 < 2 ^ 32 ∧ 1 ≤ 2 ∧ 2 ≤ 3 ∧
    (∀ i, i < convIn.length → ∃ t, convIn[i]? = some t ∧ t.Holds 3 3 fB) ∧
    (∀ o, o < 1 → ∃ f, convL.members[o]? = some f ∧ f.Holds 2 2 fA) ∧
    (∀ o, o < 1 → ∃ t, convL.members[1 + o]? = some t ∧ t.Holds 1 1 (fun _ _ => 100)) ∧
    ((∃ ret : List (Tensor ℤ),
      Conv2d.forward 3 3 2 1 convL convIn = some (convL, ret) ∧
      ret.length = 1 ∧
      ∀ o, o < 1 → ∃ t, ret[o]? = some t ∧
        t.rows = 1 + 3 - 2 ∧ t.cols = 1 + 3 - 2 ∧
        t.Holds (1 + 3 - 2) (1 + 3 - 2) (fun r c =>
          ∑ _i in Finset.range convIn.length, convValue 2 fB fA 100 r c)) ∧
    (∀ o, o < 1 → ∀ i, i < convIn.length →
      ∃ t f bt conv, convIn[i]? = some t ∧ convL.filterAt 1 o = some f ∧
        convL.biasAt 1 o = some bt ∧ t.makeConvo 2 f bt = some conv ∧
        conv.Holds (1 + 3 - 2) (1 + 3 - 2) (convValue 2 fB fA 100))) :=
  have hB3 : (⟨3, 3, mB.d_store⟩ : Tensor ℤ).Holds 3 3 fB := by
    unfold Tensor.Holds NNArray.Holds; decide
  have hin : ∀ i, i < convIn.length → ∃ t, convIn[i]? = some t ∧ t.Holds 3 3 fB := by
    intro i hi
    have : i = 0 ∨ i = 1 := by
      simp only [convIn, List.length_cons, List.length_nil] at hi
      omega
    rcases this with rfl | rfl <;> exact ⟨_, rfl, hB3⟩
  have hf : ∀ o, o < 1 → ∃ f, convL.members[o]? = some f ∧ f.Holds 2 2 fA := by
    intro o ho
    have : o = 0 := by omega
    subst this
    exact ⟨_, rfl, by unfold Tensor.Holds NNArray.Holds; decide⟩
  have hb : ∀ o, o < 1 →
      ∃ t, convL.members[1 + o]? = some t ∧ t.Holds 1 1 (fun _ _ => (100 : ℤ)) := by
    intro o ho
    have : o = 0 := by omega
    subst this
    exact ⟨_, rfl, by unfold Tensor.Holds NNArray.Holds; decide⟩
  ⟨by decide, by decide, by decide, hin, hf, hb,
    Conv2d_forward_maps 3 3 2 1 convL convIn (fun _ => fB) (fun _ => fA)
      (fun _ _ _ => 100) (by decide) (by decide) (by decide) (by decide) hin hf hb⟩

/-- C19: in `Conv2d::forward` with `INLAYERS` input layers the bias of filter `o` is
added once per input layer: element `(r, c)` of map `o` has the value
`(∑ i < INLAYERS, ∑ kr < K, ∑ kc < K, x i (r+kr) (c+kc) * w o kr kc)
  + INLAYERS * b o 0 0`. -/
theorem Conv2d_forward_bias {α : Type} [Semiring α] (ROWS COLS KERNEL OUTLAYERS : Nat)
    (cv : Conv2d α) (inp : List (Tensor α)) (x w b : Nat → Nat → Nat → α)
    (hsz : ROWS * COLS < 2 ^ 32)
    (hK : 1 ≤ KERNEL) (hKR : KERNEL ≤ ROWS) (hKC : KERNEL ≤ COLS)
    (hin : ∀ i, i < inp.length → ∃ t, inp[i]? = some t ∧ t.Holds ROWS COLS (x i))
    (hf : ∀ o, o < OUTLAYERS → ∃ f, cv.members[o]? = some f ∧ f.Holds KERNEL KERNEL (w o))
    (hb : ∀ o, o < OUTLAYERS →
      ∃ t, cv.members[OUTLAYERS + o]? = some t ∧ t.Holds 1 1 (b o)) :
    ∃ ret : List (Tensor α),
      Conv2d.forward ROWS COLS KERNEL OUTLAYERS cv inp = some (cv, ret) ∧
      ∀ o, o < OUTLAYERS → ∃ t, ret[o]? = some t ∧
        t.Holds (1 + ROWS - KERNEL) (1 + COLS - KERNEL) (fun r c =>
          (∑ i in Finset.range inp.length, ∑ kr in Finset.range KERNEL,
            ∑ kc in Finset.range KERNEL, x i (r + kr) (c + kc) * w o kr kc)
          + (inp.length : α) * b o 0 0) := by
  obtain ⟨ret, hret, _, hmaps⟩ := Conv2d_forward_spec ROWS COLS KERNEL OUTLAYERS cv inp
    x w b hsz hK hKR hKC hin hf hb
  refine ⟨ret, hret, fun o ho => ?_⟩
  obtain ⟨t, ht, hth⟩ := hmaps o ho
  refine ⟨t, ht, tensor_holds_congr hth ?_⟩
  intro r _ c _
  simp only [convValue, Finset.sum_add_distrib, Finset.sum_const, Finset.card_range,
    nsmul_eq_mul]

/-- C19 at the layer `convL` (one 2×2 filter, bias `100`) and two 3×3 input
layers. -/
theorem Conv2d_forward_bias_witness :
    3 * 3 < 2 ^ 32 ∧ 1 ≤ 2 ∧ 2 ≤ 3 ∧
    (∀ i, i < convIn.length → ∃ t, convIn[i]? = some t ∧ t.Holds 3 3 fB) ∧
    (∀ o, o < 1 → ∃ f, convL.members[o]? = some f ∧ f.Holds 2 2 fA) ∧
    (∀ o, o < 1 → ∃ t, convL.members[1 + o]? = some t ∧ t.Holds 1 1 (fun _ _ => 100)) ∧
    ∃ ret : List (Tensor ℤ),
      Conv2d.forward 3 3 2 1 convL convIn = some (convL, ret) ∧
      ∀ o, o < 1 → ∃ t, ret[o]? = some t ∧
        t.Holds (1 + 3 - 2) (1 + 3 - 2) (fun r c =>
          (∑ _i in Finset.range convIn.length, ∑ kr in Finset.range 2,
            ∑ kc in Finset.range 2, fB (r + kr) (c + kc) * fA kr kc)
          + (convIn.length : ℤ) * 100) :=
  have hB3 : (⟨3, 3, mB.d_store⟩ : Tensor ℤ).Holds 3 3 fB := by
    unfold Tensor.Holds NNArray.Holds; decide
  have hin : ∀ i, i < convIn.length → ∃ t, convIn[i]? = some t ∧ t.Holds 3 3 fB := by
    intro i hi
    have : i = 0 ∨ i = 1 := by
      simp only [convIn, List.length_cons, List.length_nil] at hi
      omega
    rcases this with rfl | rfl <;> exact ⟨_, rfl, hB3⟩
  have hf : ∀ o, o < 1 → ∃ f, convL.members[o]? = some f ∧ f.Holds 2 2 fA := by
    intro o ho
    have : o = 0 := by omega
    subst this
    exact ⟨_, rfl, by unfold Tensor.Holds NNArray.Holds; decide⟩
  have hb : ∀ o, o < 1 →
      ∃ t, convL.members[1 + o]? = some t ∧ t.Holds 1 1 (fun _ _ => (100 : ℤ)) := by
    intro o ho
    have : o = 0 := by omega
    subst this
    exact ⟨_, rfl, by unfold Tensor.Holds NNArray.Holds; decide⟩
  ⟨by decide, by decide, by decide, hin, hf, hb,
    Conv2d_forward_bias 3 3 2 1 convL convIn (fun _ => fB) (fun _ => fA)
      (fun _ _ _ => 100) (by decide) (by decide) (by decide) (by decide) hin hf hb⟩

end HelloDL
